import Mathlib

/-!
Shallow embedding of the image-processing pipeline of
`智能高速缩图V5.2.2算法更新.py` (class `ImageProcessor`).

Modelling conventions:
- Python strings are lists of characters (`List Char`).
- Python float arithmetic is modelled by exact rationals (`ℚ`); the
  concrete instances settled below are far from any binary-rounding
  boundary, so the rational values agree with the double values.
- The filesystem (`os.path.exists`) and the codec outcomes (whether an
  attempt of `Image.open`/`rawpy` processing succeeds) are explicit
  oracle functions.
- `os.walk` is modelled by an explicit list of directory/filename pairs
  in walk order, with directory paths taken relative to the input root,
  so that `os.path.relpath(filepath, input_dir)` is the recorded path
  itself (the code always joins the walked root with the file name).
-/

/-- Convert a Lean string literal to the character-list representation
used throughout this development. -/
def str (s : String) : List Char := s.toList

/-- Boolean prefix test on character lists (Python `str.startswith`). -/
def hasPre : List Char → List Char → Bool
  | [], _ => true
  | _ :: _, [] => false
  | a :: as, b :: bs => a = b && hasPre as bs

/-- Python `str.rfind` for a single character: index of the last
occurrence, `-1` if absent. -/
def pyRfind (p : List Char) (c : Char) : Int :=
  ((p.enum.filter (fun q => q.2 = c)).map (fun q => (q.1 : Int))).getLastD (-1)

/-- `posixpath.splitext`: split off the final extension of the basename.
The extension starts at the last dot, provided that dot lies inside the
basename and the basename does not consist solely of leading dots up to
that position (mirrors the `while filenameIndex < dotIndex` loop). -/
def splitext (p : List Char) : List Char × List Char :=
  let si := pyRfind p '/'
  let di := pyRfind p '.'
  if decide (si < di) &&
      (List.range p.length).any
        (fun i => decide (si < (i : Int) ∧ (i : Int) < di ∧ p.getD i '.' ≠ '.')) then
    (p.take di.toNat, p.drop di.toNat)
  else (p, [])

/-- `posixpath.join` for two components, as used in
`os.path.join(self.output_dir, rel_path)` and `os.path.join(root, file)`. -/
def pyJoin (a b : List Char) : List Char :=
  if hasPre (str "/") b then b
  else if a = [] ∨ a.getLast? = some '/' then a ++ b
  else a ++ '/' :: b

/-- Recursive worker for Python `str.replace` with a nonempty pattern
`p :: ps`: scan left to right, replacing non-overlapping occurrences.
The first argument is fuel bounding the recursion depth; every step
consumes at least one character, so fuel `s.length` (supplied by
`pyReplace`) never runs out and the fuel-zero branch is unreachable. -/
def pyRepGo (p : Char) (ps repl : List Char) : Nat → List Char → List Char
  | _, [] => []
  | 0, s => s
  | fuel + 1, c :: rest =>
    if hasPre (p :: ps) (c :: rest) then
      repl ++ pyRepGo p ps repl fuel (rest.drop ps.length)
    else c :: pyRepGo p ps repl fuel rest

/-- Python `str.replace(pat, repl)`: replaces every non-overlapping
occurrence of `pat`, left to right; with an empty pattern it inserts
`repl` before every character and at the end. -/
def pyReplace (s pat repl : List Char) : List Char :=
  match pat with
  | [] => repl ++ s.foldr (fun c acc => c :: (repl ++ acc)) []
  | p :: ps => pyRepGo p ps repl s.length s

/-- The literal `'.jpg'` used by the source when rewriting extensions. -/
def JPG_EXT : List Char := str ".jpg"

/-- Output-path computation shared by `process_image` (lines 161-164),
`process_raw` (lines 246-249) and `_is_processed` (lines 350-352):
`output_path = os.path.join(self.output_dir, rel_path)` followed by
`output_jpg = output_path.replace(os.path.splitext(output_path)[1], '.jpg')`.
Note the source uses `str.replace`, which substitutes every occurrence
of the extension substring in the whole joined path. -/
def outputJpgOf (outDir relPath : List Char) : List Char :=
  let op := pyJoin outDir relPath
  pyReplace op (splitext op).2 JPG_EXT

/-- Modelled from the spec's description of the OutputMapper: the output
root joined with the input's relative path, with only the final
extension replaced by `.jpg` (the directory part left untouched).
Stated for comparison with `outputJpgOf`, which is what the code does. -/
def specOutputJpg (outDir relPath : List Char) : List Char :=
  let op := pyJoin outDir relPath
  (splitext op).1 ++ JPG_EXT

/-- Python `round` to an integer: round half to even (used on exact
rationals; the settled instances are away from ties and binary-rounding
boundaries). -/
def rhe (x : ℚ) : ℤ :=
  if x - ⌊x⌋ < 1 / 2 then ⌊x⌋
  else if 1 / 2 < x - ⌊x⌋ then ⌊x⌋ + 1
  else if ⌊x⌋ % 2 = 0 then ⌊x⌋ else ⌊x⌋ + 1

/-- Python `round(x, 2)`: round to two decimal places. -/
def round2 (x : ℚ) : ℚ := (rhe (x * 100) : ℚ) / 100

/-- Python `int(...)` on a number: truncation toward zero. -/
def pyint (x : ℚ) : ℤ := if 0 ≤ x then ⌊x⌋ else -⌊-x⌋

/-- Force a dimension to be even by incrementing an odd value
(`new_width = new_width if new_width % 2 == 0 else new_width + 1`). -/
def forceEven (n : ℤ) : ℤ := if n % 2 = 0 then n else n + 1

/-- Resize-dimension computation of the standard pipeline,
`process_image` lines 133-142: when `max(w, h) > max_side`, scale by
`ratio = max_side / max(w, h)`, take `int(round(d * ratio, 2))` for each
dimension and force the results even; otherwise keep `(w, h)`. -/
def newDimsStd (maxSide w h : ℕ) : ℤ × ℤ :=
  if max w h > maxSide then
    let ratio : ℚ := (maxSide : ℚ) / ((max w h : ℕ) : ℚ)
    (forceEven (pyint (round2 ((w : ℚ) * ratio))),
     forceEven (pyint (round2 ((h : ℚ) * ratio))))
  else ((w : ℤ), (h : ℤ))

/-- Resize-dimension computation of the RAW pipeline, `process_raw`
lines 233-239: identical to the standard pipeline except that the scaled
dimensions are truncated by `int(...)` with no two-decimal rounding. -/
def newDimsRaw (maxSide w h : ℕ) : ℤ × ℤ :=
  if max w h > maxSide then
    let ratio : ℚ := (maxSide : ℚ) / ((max w h : ℕ) : ℚ)
    (forceEven (pyint ((w : ℚ) * ratio)),
     forceEven (pyint ((h : ℚ) * ratio)))
  else ((w : ℤ), (h : ℤ))

/-- Effective JPEG quality stored by `ImageProcessor.__init__` line 52:
`self.jpg_quality = max(85, min(jpg_quality, 100))`. The field is never
reassigned afterwards, so this is the quality for the whole run. -/
def effectiveQuality (q : ℤ) : ℤ := max 85 (min q 100)

/-- RAW extension set (source line 33). -/
def RAW_EXTENSIONS : List (List Char) :=
  [str ".cr2", str ".cr3", str ".nef", str ".arw", str ".dng", str ".raw",
   str ".raf", str ".rw2", str ".srw", str ".3fr"]

/-- Standard-image extension set (source line 34). -/
def IMAGE_EXTENSIONS : List (List Char) :=
  [str ".jpg", str ".jpeg", str ".png", str ".heic", str ".bmp", str ".gif", str ".tiff"]

/-- Retry budget of the standard pipeline (source line 39). -/
def JPG_RETRY_COUNT : Nat := 2

/-- ASCII lowercasing of one character (Python `str.lower` restricted to
ASCII, which covers every extension comparison the scanner performs). -/
def lowerChar (c : Char) : Char :=
  if 'A' ≤ c ∧ c ≤ 'Z' then Char.ofNat (c.toNat + 32) else c

/-- ASCII lowercasing of a name (`file.lower()`, line 367). -/
def lowerStr (s : List Char) : List Char := s.map lowerChar

/-- One file met by `os.walk`: the walked directory (relative to the
input root) and the bare file name. -/
structure WalkEntry where
  dir : List Char
  fname : List Char
deriving DecidableEq

/-- The path the scanner stores for an entry
(`filepath = os.path.join(root, file)`, line 366), relative to the
input root under this model's convention. -/
def WalkEntry.path (e : WalkEntry) : List Char := pyJoin e.dir e.fname

/-- System-file filter (line 362): `file.startswith(("._", "_"))`. -/
def isSysFile (name : List Char) : Bool :=
  hasPre (str "._") name || hasPre (str "_") name

/-- Group key: stem of the lowercased file name
(`name, ext = os.path.splitext(file.lower())`, line 367). -/
def stemOf (name : List Char) : List Char := (splitext (lowerStr name)).1

/-- Extension of the lowercased file name (same source line). -/
def extOf (name : List Char) : List Char := (splitext (lowerStr name)).2

/-- Classification as standard image (`ext in IMAGE_EXTENSIONS`). -/
def isImageName (name : List Char) : Bool := IMAGE_EXTENSIONS.contains (extOf name)

/-- Classification as RAW (`ext in RAW_EXTENSIONS`). -/
def isRawName (name : List Char) : Bool := RAW_EXTENSIONS.contains (extOf name)

/-- One group slot pair (`{'image': None, 'raw': None}`, line 370). -/
structure FileGroup where
  image : Option (List Char)
  raw : Option (List Char)
deriving DecidableEq

/-- The freshly inserted group. -/
def emptyGroup : FileGroup := ⟨none, none⟩

/-- Update the group stored under key `k` in an insertion-ordered
association list, inserting a fresh group at the end when the key is
new (Python dict semantics of lines 369-374). -/
def updateGroup (k : List Char) (f : FileGroup → FileGroup) :
    List (List Char × FileGroup) → List (List Char × FileGroup)
  | [] => [(k, f emptyGroup)]
  | (k1, g) :: rest =>
    if k1 = k then (k1, f g) :: rest else (k1, g) :: updateGroup k f rest

/-- One step of the scanning fold (lines 360-374): count and drop
system files, store image/RAW paths into the group keyed by the
lowercased stem, ignore unrecognized extensions. -/
def scanStep (st : List (List Char × FileGroup) × Nat) (e : WalkEntry) :
    List (List Char × FileGroup) × Nat :=
  if isSysFile e.fname then (st.1, st.2 + 1)
  else if isImageName e.fname then
    (updateGroup (stemOf e.fname) (fun g => { g with image := some e.path }) st.1, st.2)
  else if isRawName e.fname then
    (updateGroup (stemOf e.fname) (fun g => { g with raw := some e.path }) st.1, st.2)
  else st

/-- `scan_and_group_files` grouping phase over a completed walk (lines
356-374): returns the groups in insertion order together with
`skipped_system_files`. Cancellation aborts the walk early in the
source; the claims below are settled about completed scans. -/
def scanGroups (walk : List WalkEntry) : List (List Char × FileGroup) × Nat :=
  walk.foldl scanStep ([], 0)

/-- Selection step over one group (lines 378-384): an image, when
present, is appended to the image list and a coexisting RAW (with RAW
processing enabled) bumps `skip_files`; otherwise an enabled RAW is
appended to the RAW list. -/
def selectStep (rawEnabled : Bool)
    (acc : List (List Char) × List (List Char) × Nat) (kg : List Char × FileGroup) :
    List (List Char) × List (List Char) × Nat :=
  match kg.2.image with
  | some p =>
    (acc.1 ++ [p], acc.2.1, acc.2.2 + (if rawEnabled && kg.2.raw.isSome then 1 else 0))
  | none =>
    match kg.2.raw with
    | some r => if rawEnabled then (acc.1, acc.2.1 ++ [r], acc.2.2) else acc
    | none => acc

/-- Selection over all groups in insertion order (lines 376-384):
`(image_files, raw_files, skip_files)`. -/
def selectFiles (rawEnabled : Bool) (groups : List (List Char × FileGroup)) :
    List (List Char) × List (List Char) × Nat :=
  groups.foldl (selectStep rawEnabled) ([], [], 0)

/-- Provenance tag of an error-log entry: `process_image`'s own
`log_error` (line 188), the run loop's `log_error(f, "处理失败")`
(line 445), or `process_raw`'s `log_error` (line 270). An entry is
modelled as the reported file plus this tag; the timestamp and message
text carry no information the claims depend on. -/
inductive ErrSrc
  | pipelineEntry
  | schedulerEntry
  | rawEntry
deriving DecidableEq

/-- One error-log entry. -/
abbrev ErrEntry := List Char × ErrSrc

/-- Number of error-log entries recorded for a given file. -/
def entriesFor (f : List Char) (log : List ErrEntry) : Nat :=
  log.countP (fun e => decide (e.1 = f))

/-- The attempt loop of `process_image` (lines 121-189) from attempt
number `retry` on: `att n` tells whether attempt `n` (steps 1-6 of the
pipeline) succeeds. Returns the success flag the function returns to
its caller together with the error-log entries it appends itself:
exactly one entry, after the last failed attempt. The function catches
every exception, so it never raises to the caller. -/
def processImageFrom (att : Nat → Bool) (f : List Char) :
    Nat → Nat → Bool × List ErrEntry
  | retry, 0 =>
    if att retry then (true, []) else (false, [(f, ErrSrc.pipelineEntry)])
  | retry, left + 1 =>
    if att retry then (true, []) else processImageFrom att f (retry + 1) left

/-- A full `process_image` call, starting at attempt 0 with
`JPG_RETRY_COUNT` retries left (`left` counts the retries remaining, so
`retry < JPG_RETRY_COUNT` in the source is `left > 0` here). -/
def processImage (att : Nat → Bool) (f : List Char) : Bool × List ErrEntry :=
  processImageFrom att f 0 JPG_RETRY_COUNT

/-- Counters and logs accumulated by a processing stage. -/
structure StageAcc where
  processed : Nat
  errlog : List ErrEntry
  writes : List (List Char)
deriving DecidableEq

/-- Bookkeeping the run loop performs for one completed standard-image
job (lines 439-447): a True result increments `processed_files` (the
job wrote its mapped output); a False result leaves the entry
`process_image` appended and adds the run loop's own
`log_error(f, "处理失败")` entry. -/
def stdStep (outDir : List Char) (att : List Char → Nat → Bool)
    (acc : StageAcc) (f : List Char) : StageAcc :=
  let r := processImage (att f) f
  if r.1 then
    { acc with processed := acc.processed + 1,
               writes := acc.writes ++ [outputJpgOf outDir f] }
  else
    { acc with errlog := acc.errlog ++ r.2 ++ [(f, ErrSrc.schedulerEntry)] }

/-- The standard-image stage fully drained with no cancellation: every
submitted job completes and is polled exactly once, so the run-level
bookkeeping is the fold of `stdStep` over the work list (completion
order only permutes the log; the counters settled below are
order-independent). -/
def stdStage (outDir : List Char) (att : List Char → Nat → Bool)
    (files : List (List Char)) (init : StageAcc) : StageAcc :=
  files.foldl (stdStep outDir att) init

/-- Bookkeeping of `process_raw_files` for one RAW file (lines 339-345)
with `process_raw` (lines 192-271): single attempt, success increments
`processed_files`, failure appends exactly one error entry. -/
def rawStep (outDir : List Char) (rawOk : List Char → Bool)
    (acc : StageAcc) (f : List Char) : StageAcc :=
  if rawOk f then
    { acc with processed := acc.processed + 1,
               writes := acc.writes ++ [outputJpgOf outDir f] }
  else
    { acc with errlog := acc.errlog ++ [(f, ErrSrc.rawEntry)] }

/-- The sequential RAW stage (lines 333-347). -/
def rawStage (outDir : List Char) (rawOk : List Char → Bool)
    (files : List (List Char)) (init : StageAcc) : StageAcc :=
  files.foldl (rawStep outDir rawOk) init

/-- `_is_processed` (lines 349-353): the mapped output path exists.
`fsExists` is the `os.path.exists` oracle. -/
def isProcessed (fsExists : List Char → Bool) (outDir : List Char)
    (f : List Char) : Bool :=
  fsExists (outputJpgOf outDir f)

/-- The standard-image work list after the idempotence pre-filter
(line 409): selected images whose mapped output does not exist yet. -/
def standardWorkList (fsExists : List Char → Bool) (outDir : List Char)
    (rawEnabled : Bool) (walk : List WalkEntry) : List (List Char) :=
  (selectFiles rawEnabled (scanGroups walk).1).1.filter
    (fun f => !(isProcessed fsExists outDir f))

/-- The RAW work list: selected RAW files, to which the run applies no
existence pre-filter (line 409 filters `image_files` only). -/
def rawWorkList (rawEnabled : Bool) (walk : List WalkEntry) : List (List Char) :=
  (selectFiles rawEnabled (scanGroups walk).1).2.1

/-- Final counters of one complete (uncancelled) run. -/
structure RunResult where
  processed : Nat
  skipFiles : Nat
  sysFiles : Nat
  totalFiles : Nat
  errlog : List ErrEntry
  writes : List (List Char)

/-- `ImageProcessor.run` without cancellation (lines 389-477): scan and
group, select, pre-filter the image list by `_is_processed`, recompute
`total_files` (line 410), run the standard stage, then the sequential
RAW stage when RAW processing is enabled. `rawEnabled` is
`process_raw_enabled` after the startup rawpy-availability check (lines
394-396), which precedes the scan. -/
def runModel (outDir : List Char) (fsExists : List Char → Bool)
    (att : List Char → Nat → Bool) (rawOk : List Char → Bool)
    (rawEnabled : Bool) (walk : List WalkEntry) : RunResult :=
  let sg := scanGroups walk
  let sel := selectFiles rawEnabled sg.1
  let imgs := sel.1.filter (fun f => !(isProcessed fsExists outDir f))
  let raws := sel.2.1
  let a1 := stdStage outDir att imgs ⟨0, [], []⟩
  let a2 := if rawEnabled then rawStage outDir rawOk raws a1 else a1
  { processed := a2.processed, skipFiles := sel.2.2, sysFiles := sg.2,
    totalFiles := imgs.length + raws.length, errlog := a2.errlog,
    writes := a2.writes }

/-- State of the scheduler poll loop of `run` (lines 420-452):
files not yet taken from the iterator, in-flight futures with the
number of poll iterations left until `future.done()` turns true,
the counters mutated by the loop, and the order in which finished
futures were collected (`polled` records the files whose results the
loop has consumed, success or failure). -/
structure SchedState where
  pending : List (List Char)
  flight : List (List Char × Nat)
  processed : Nat
  errlog : List ErrEntry
  polled : List (List Char)
deriving DecidableEq

/-- Submission inner loop (lines 427-432): while fewer futures than the
in-flight limit are outstanding, submit the next file from the
iterator; `dur f` is the number of poll iterations before the new
future is observed done. -/
def submitUpTo (limit : Nat) (dur : List Char → Nat)
    (flight : List (List Char × Nat)) :
    List (List Char) → List (List Char × Nat) × List (List Char)
  | [] => (flight, [])
  | f :: rest =>
    if flight.length < limit then submitUpTo limit dur (flight ++ [(f, dur f)]) rest
    else (flight, f :: rest)

/-- Bookkeeping for one future observed done (lines 437-448): a True
result increments `processed_files`; a False result appends the entry
`process_image` logged when the task ran, followed by the loop's own
`log_error(f, "处理失败")` entry. The file is recorded as polled. -/
def collectDone (att : List Char → Nat → Bool) (st : SchedState)
    (f : List Char) : SchedState :=
  if (processImage (att f) f).1 then
    { st with processed := st.processed + 1, polled := st.polled ++ [f] }
  else
    { st with errlog := st.errlog ++ [(f, ErrSrc.pipelineEntry), (f, ErrSrc.schedulerEntry)],
              polled := st.polled ++ [f] }

/-- The scheduler poll loop (lines 426-452) run deterministically:
`cancelAt` is the iteration at which the read of `self.running` first
returns false (the `cancel` method, lines 479-481, flips the flag from
another thread); each iteration checks the flag, refills the in-flight
window, breaks when nothing is in flight, collects the futures whose
remaining ticks reached zero and decrements the rest. `fuel` bounds the
iteration count; any value large enough to drain the input leaves the
loop at its fixed point. -/
def schedLoop (limit : Nat) (att : List Char → Nat → Bool)
    (dur : List Char → Nat) (cancelAt : Nat) :
    Nat → Nat → SchedState → SchedState
  | 0, _, st => st
  | fuel + 1, t, st =>
    if cancelAt ≤ t then st
    else if (submitUpTo limit dur st.flight st.pending).1 = [] then
      { st with flight := [], pending := (submitUpTo limit dur st.flight st.pending).2 }
    else
      schedLoop limit att dur cancelAt fuel (t + 1)
        ((((submitUpTo limit dur st.flight st.pending).1.filter
            (fun q => decide (q.2 = 0))).map (fun q => q.1)).foldl (collectDone att)
          { st with
            flight := ((submitUpTo limit dur st.flight st.pending).1.filter
              (fun q => !decide (q.2 = 0))).map (fun q => (q.1, q.2 - 1)),
            pending := (submitUpTo limit dur st.flight st.pending).2 })

/-- Error-log entries appended while the executor context manager
drains (lines 422 and 452 close the `with` block, whose
`shutdown(wait=True)` lets in-flight tasks finish): every still-running
task executes `process_image` to completion, so a failing task appends
the single entry `process_image` logs itself; no result is polled, so
nothing else is recorded for these tasks. -/
def drainEntries (att : List Char → Nat → Bool)
    (flight : List (List Char × Nat)) : List ErrEntry :=
  flight.flatMap (fun q =>
    if (processImage (att q.1) q.1).1 then [] else [(q.1, ErrSrc.pipelineEntry)])

/-- The standard-image stage of `run` under cancellation: the poll loop
followed by the executor drain. -/
def runStdSched (limit : Nat) (att : List Char → Nat → Bool)
    (dur : List Char → Nat) (cancelAt fuel : Nat)
    (files : List (List Char)) : SchedState :=
  let st := schedLoop limit att dur cancelAt fuel 0 ⟨files, [], 0, [], []⟩
  { st with errlog := st.errlog ++ drainEntries att st.flight }

lemma rhe_eq_of_le_of_lt {x : ℚ} {k : ℤ} (h1 : (k : ℚ) ≤ x) (h2 : x < (k : ℚ) + 1 / 2) :
    rhe x = k := by
  have hf : ⌊x⌋ = k := by
    rw [Int.floor_eq_iff]
    exact ⟨h1, by linarith⟩
  unfold rhe
  rw [hf, if_pos (by linarith)]

lemma pyint_eq_of {x : ℚ} {k : ℤ} (h0 : 0 ≤ x) (h1 : (k : ℚ) ≤ x)
    (h2 : x < (k : ℚ) + 1) : pyint x = k := by
  unfold pyint
  rw [if_pos h0, Int.floor_eq_iff]
  exact ⟨h1, h2⟩

lemma le_rhe (x : ℚ) : x - 1 / 2 ≤ (rhe x : ℚ) := by
  unfold rhe
  split_ifs with h1 h2 h3 <;> push_cast <;>
    [linarith; linarith [Int.lt_floor_add_one x]; linarith; linarith]

lemma rhe_le (x : ℚ) : (rhe x : ℚ) ≤ x + 1 / 2 := by
  unfold rhe
  split_ifs with h1 h2 h3 <;> push_cast <;>
    [linarith [Int.floor_le x]; linarith; linarith; linarith]

lemma rhe_nonneg {x : ℚ} (h : 0 ≤ x) : 0 ≤ rhe x := by
  unfold rhe
  have := Int.floor_nonneg.mpr h
  split_ifs <;> omega

lemma le_round2 (x : ℚ) : x - 1 / 200 ≤ round2 x := by
  unfold round2
  have := le_rhe (x * 100)
  linarith

lemma round2_le (x : ℚ) : round2 x ≤ x + 1 / 200 := by
  unfold round2
  have := rhe_le (x * 100)
  linarith

lemma round2_nonneg {x : ℚ} (h : 0 ≤ x) : 0 ≤ round2 x := by
  unfold round2
  have : (0 : ℚ) ≤ (rhe (x * 100) : ℚ) := by
    exact_mod_cast rhe_nonneg (by linarith)
  linarith

lemma pyint_bounds {x : ℚ} (h : 0 ≤ x) :
    x - 1 < (pyint x : ℚ) ∧ (pyint x : ℚ) ≤ x := by
  unfold pyint
  rw [if_pos h]
  exact ⟨by linarith [Int.lt_floor_add_one x], Int.floor_le x⟩

lemma forceEven_even (n : ℤ) : forceEven n % 2 = 0 := by
  unfold forceEven
  split_ifs with h <;> omega

lemma le_forceEven (n : ℤ) : n ≤ forceEven n := by
  unfold forceEven
  split_ifs <;> omega

lemma forceEven_le (n : ℤ) : forceEven n ≤ n + 1 := by
  unfold forceEven
  split_ifs <;> omega

lemma forceEven_odd {n : ℤ} (h : n % 2 = 1) : forceEven n = n + 1 := by
  unfold forceEven
  rw [if_neg (by omega)]

/-- Shared bound: a dimension truncated from a value at most
`m + 1/200` and forced even stays at most `m + 1`. -/
lemma forceEven_pyint_le {m : ℕ} {y : ℚ} (h0 : 0 ≤ y)
    (hy : y ≤ (m : ℚ) + 1 / 200) : forceEven (pyint y) ≤ (m : ℤ) + 1 := by
  have hb := pyint_bounds h0
  have : (pyint y : ℚ) < (m : ℚ) + 1 := by linarith
  have hle : pyint y ≤ (m : ℤ) := by exact_mod_cast Int.lt_add_one_iff.mp (by exact_mod_cast this)
  have := forceEven_le (pyint y)
  omega

/-- Shared bound: `d * (m / M) ≤ m` when `d ≤ M`. -/
lemma scaled_le {d m M : ℕ} (hd : d ≤ M) (hM : 0 < M) :
    (d : ℚ) * ((m : ℚ) / (M : ℚ)) ≤ (m : ℚ) := by
  have hM0 : (0 : ℚ) < (M : ℚ) := by exact_mod_cast hM
  have h1 : (d : ℚ) / (M : ℚ) ≤ 1 := by
    rw [div_le_one hM0]
    exact_mod_cast hd
  have h2 : (d : ℚ) * ((m : ℚ) / (M : ℚ)) = (m : ℚ) * ((d : ℚ) / (M : ℚ)) := by ring
  rw [h2]
  nlinarith [Nat.cast_nonneg (α := ℚ) m]

lemma rhe_intCast (k : ℤ) : rhe (k : ℚ) = k :=
  rhe_eq_of_le_of_lt le_rfl (by linarith)

lemma round2_natCast (m : ℕ) : round2 (m : ℚ) = (m : ℚ) := by
  unfold round2
  have h : (m : ℚ) * 100 = ((m * 100 : ℤ) : ℚ) := by push_cast; ring
  rw [h, rhe_intCast]
  push_cast
  field_simp

lemma pyint_natCast (m : ℕ) : pyint (m : ℚ) = (m : ℤ) := by
  apply pyint_eq_of (by positivity)
  · push_cast
    exact le_rfl
  · push_cast
    linarith

lemma newDimsStd_le (maxSide w h : ℕ) :
    (newDimsStd maxSide w h).1 ≤ (maxSide : ℤ) + 1 ∧
    (newDimsStd maxSide w h).2 ≤ (maxSide : ℤ) + 1 := by
  unfold newDimsStd
  split_ifs with hgt
  · have hM : 0 < max w h := lt_of_le_of_lt (Nat.zero_le _) hgt
    constructor
    · apply forceEven_pyint_le (round2_nonneg (by positivity))
      have hs := scaled_le (le_max_left w h) hM (m := maxSide)
      have := round2_le ((w : ℚ) * ((maxSide : ℚ) / ((max w h : ℕ) : ℚ)))
      linarith
    · apply forceEven_pyint_le (round2_nonneg (by positivity))
      have hs := scaled_le (le_max_right w h) hM (m := maxSide)
      have := round2_le ((h : ℚ) * ((maxSide : ℚ) / ((max w h : ℕ) : ℚ)))
      linarith
  · push_neg at hgt
    have hw : w ≤ maxSide := le_trans (le_max_left w h) hgt
    have hh : h ≤ maxSide := le_trans (le_max_right w h) hgt
    constructor <;> simp only [] <;> omega

lemma newDimsRaw_le (maxSide w h : ℕ) :
    (newDimsRaw maxSide w h).1 ≤ (maxSide : ℤ) + 1 ∧
    (newDimsRaw maxSide w h).2 ≤ (maxSide : ℤ) + 1 := by
  unfold newDimsRaw
  split_ifs with hgt
  · have hM : 0 < max w h := lt_of_le_of_lt (Nat.zero_le _) hgt
    constructor
    · apply forceEven_pyint_le (by positivity)
      have hs := scaled_le (le_max_left w h) hM (m := maxSide)
      linarith
    · apply forceEven_pyint_le (by positivity)
      have hs := scaled_le (le_max_right w h) hM (m := maxSide)
      linarith
  · push_neg at hgt
    have hw : w ≤ maxSide := le_trans (le_max_left w h) hgt
    have hh : h ≤ maxSide := le_trans (le_max_right w h) hgt
    constructor <;> simp only [] <;> omega

lemma square_scaled_eq {m n : ℕ} (hmn : m < n) :
    (n : ℚ) * ((m : ℚ) / ((max n n : ℕ) : ℚ)) = (m : ℚ) := by
  have hn : (0 : ℚ) < (n : ℚ) := by exact_mod_cast Nat.pos_of_ne_zero (by omega)
  rw [max_self]
  field_simp

lemma newDimsStd_square {m n : ℕ} (hodd : m % 2 = 1) (hmn : m < n) :
    newDimsStd m n n = ((m : ℤ) + 1, (m : ℤ) + 1) := by
  unfold newDimsStd
  rw [if_pos (by simpa [max_self] using hmn)]
  simp only [square_scaled_eq hmn, round2_natCast, pyint_natCast]
  rw [forceEven_odd (by omega)]

lemma newDimsRaw_square {m n : ℕ} (hodd : m % 2 = 1) (hmn : m < n) :
    newDimsRaw m n n = ((m : ℤ) + 1, (m : ℤ) + 1) := by
  unfold newDimsRaw
  rw [if_pos (by simpa [max_self] using hmn)]
  simp only [square_scaled_eq hmn, pyint_natCast]
  rw [forceEven_odd (by omega)]

lemma newDimsStd_101_50 : newDimsStd 50 101 50 = (50, 24) := by
  norm_num [newDimsStd, round2, rhe, pyint, forceEven]

/-- Claim C8: the effective quality stored by the constructor is the
clamp of the configured value to [85,100]: 10 yields 85, 500 yields
100, in-range values are unchanged, and the stored quality always lies
in [85,100] (the field is never reassigned during a run). -/
theorem claimC8_quality_clamp :
    effectiveQuality 10 = 85 ∧ effectiveQuality 500 = 100 ∧
    (∀ q : ℤ, 85 ≤ q → q ≤ 100 → effectiveQuality q = q) ∧
    (∀ q : ℤ, 85 ≤ effectiveQuality q ∧ effectiveQuality q ≤ 100) := by
  refine ⟨by decide, by decide, ?_, ?_⟩
  · intro q h1 h2
    simp only [effectiveQuality, max_def, min_def]
    split_ifs <;> omega
  · intro q
    simp only [effectiveQuality, max_def, min_def]
    split_ifs <;> omega

/-- Witness for C8 at concrete inputs. -/
theorem claimC8_quality_clamp_witness :
    effectiveQuality 90 = 90 ∧ 85 ≤ effectiveQuality 7 :=
  ⟨claimC8_quality_clamp.2.2.1 90 (by decide) (by decide),
   (claimC8_quality_clamp.2.2.2 7).1⟩

/-- Claim C9: the even-dimension forcing can exceed `max_side`: any
square image strictly larger than an odd `max_side` resizes to
`(max_side+1) × (max_side+1)` in both the standard and the RAW
pipeline; in general each output dimension is bounded by
`max_side + 1` (never by `max_side`). -/
theorem claimC9_even_forcing_exceeds_max_side :
    (∀ m n : ℕ, m % 2 = 1 → m < n →
      newDimsStd m n n = ((m : ℤ) + 1, (m : ℤ) + 1) ∧
      newDimsRaw m n n = ((m : ℤ) + 1, (m : ℤ) + 1)) ∧
    (∀ m w h : ℕ,
      (newDimsStd m w h).1 ≤ (m : ℤ) + 1 ∧ (newDimsStd m w h).2 ≤ (m : ℤ) + 1 ∧
      (newDimsRaw m w h).1 ≤ (m : ℤ) + 1 ∧ (newDimsRaw m w h).2 ≤ (m : ℤ) + 1) := by
  constructor
  · intro m n hodd hmn
    exact ⟨newDimsStd_square hodd hmn, newDimsRaw_square hodd hmn⟩
  · intro m w h
    exact ⟨(newDimsStd_le m w h).1, (newDimsStd_le m w h).2,
           (newDimsRaw_le m w h).1, (newDimsRaw_le m w h).2⟩

/-- Witness for C9: a 100×100 image at `max_side = 49` comes out
50×50 in both pipelines. -/
theorem claimC9_even_forcing_exceeds_max_side_witness :
    newDimsStd 49 100 100 = (50, 50) ∧ newDimsRaw 49 100 100 = (50, 50) :=
  (claimC9_even_forcing_exceeds_max_side.1 49 100 (by decide) (by decide))

/-- Claim C2 counterexample: the code maps a 101×50 image at
`max_side = 50` to 50×24, not the claimed 50×26, and the output height
24 is strictly below the unrounded scaled height `50 * (50/101)`
(`int(round(24.75.., 2))` truncates 24.75 to 24, which is already
even). -/
theorem claimC2_counterexample :
    newDimsStd 50 101 50 = (50, 24) ∧ ¬ newDimsStd 50 101 50 = (50, 26) ∧
    ¬ ((50 : ℚ) * ((50 : ℚ) / 101) ≤ ((newDimsStd 50 101 50).2 : ℚ)) := by
  refine ⟨newDimsStd_101_50, by rw [newDimsStd_101_50]; decide, ?_⟩
  rw [newDimsStd_101_50]
  norm_num

/-- Claim C2 (amended): when `max(w,h) > max_side`, both output
dimensions are even and each is strictly greater than the unrounded
scaled value minus 2 (the code truncates `round(d*ratio, 2)` to an
integer, so a dimension can fall below the unrounded scaled value);
101×50 at `max_side = 50` yields 50×24. -/
theorem claimC2_amended :
    (∀ maxSide w h : ℕ, max w h > maxSide →
      (newDimsStd maxSide w h).1 % 2 = 0 ∧ (newDimsStd maxSide w h).2 % 2 = 0 ∧
      (w : ℚ) * ((maxSide : ℚ) / ((max w h : ℕ) : ℚ)) - 2 < ((newDimsStd maxSide w h).1 : ℚ) ∧
      (h : ℚ) * ((maxSide : ℚ) / ((max w h : ℕ) : ℚ)) - 2 < ((newDimsStd maxSide w h).2 : ℚ)) ∧
    newDimsStd 50 101 50 = (50, 24) := by
  constructor
  · intro maxSide w h hgt
    unfold newDimsStd
    rw [if_pos hgt]
    refine ⟨forceEven_even _, forceEven_even _, ?_, ?_⟩
    · have h0 : (0 : ℚ) ≤ (w : ℚ) * ((maxSide : ℚ) / ((max w h : ℕ) : ℚ)) := by positivity
      have hb := pyint_bounds (round2_nonneg h0)
      have hr := le_round2 ((w : ℚ) * ((maxSide : ℚ) / ((max w h : ℕ) : ℚ)))
      have hfe := le_forceEven (pyint (round2 ((w : ℚ) * ((maxSide : ℚ) / ((max w h : ℕ) : ℚ)))))
      have hfe2 : ((pyint (round2 ((w : ℚ) * ((maxSide : ℚ) / ((max w h : ℕ) : ℚ)))) : ℚ)) ≤
          ((forceEven (pyint (round2 ((w : ℚ) * ((maxSide : ℚ) / ((max w h : ℕ) : ℚ))))) : ℚ)) := by
        exact_mod_cast hfe
      linarith [hb.1]
    · have h0 : (0 : ℚ) ≤ (h : ℚ) * ((maxSide : ℚ) / ((max w h : ℕ) : ℚ)) := by positivity
      have hb := pyint_bounds (round2_nonneg h0)
      have hr := le_round2 ((h : ℚ) * ((maxSide : ℚ) / ((max w h : ℕ) : ℚ)))
      have hfe := le_forceEven (pyint (round2 ((h : ℚ) * ((maxSide : ℚ) / ((max w h : ℕ) : ℚ)))))
      have hfe2 : ((pyint (round2 ((h : ℚ) * ((maxSide : ℚ) / ((max w h : ℕ) : ℚ)))) : ℚ)) ≤
          ((forceEven (pyint (round2 ((h : ℚ) * ((maxSide : ℚ) / ((max w h : ℕ) : ℚ))))) : ℚ)) := by
        exact_mod_cast hfe
      linarith [hb.1]
  · exact newDimsStd_101_50

/-- Witness for the amended C2 at the 101×50 instance. -/
theorem claimC2_amended_witness :
    (newDimsStd 50 101 50).1 % 2 = 0 ∧ (newDimsStd 50 101 50).2 % 2 = 0 :=
  ⟨(claimC2_amended.1 50 101 50 (by decide)).1,
   (claimC2_amended.1 50 101 50 (by decide)).2.1⟩

lemma selectFiles_go (rawEnabled : Bool) (groups : List (List Char × FileGroup))
    (acc : List (List Char) × List (List Char) × Nat) :
    groups.foldl (selectStep rawEnabled) acc =
      (acc.1 ++ groups.filterMap (fun kg => kg.2.image),
       acc.2.1 ++ groups.filterMap (fun kg =>
         match kg.2.image with
         | some _ => none
         | none => if rawEnabled then kg.2.raw else none),
       acc.2.2 + groups.countP (fun kg =>
         rawEnabled && kg.2.image.isSome && kg.2.raw.isSome)) := by
  induction groups generalizing acc with
  | nil => simp
  | cons kg rest ih =>
    rw [List.foldl_cons, ih]
    obtain ⟨k, gi, gr⟩ := kg
    cases gi <;> cases gr <;> cases rawEnabled <;>
      simp [selectStep, List.countP_cons] <;> omega

lemma selectFiles_eq (rawEnabled : Bool) (groups : List (List Char × FileGroup)) :
    selectFiles rawEnabled groups =
      (groups.filterMap (fun kg => kg.2.image),
       groups.filterMap (fun kg =>
         match kg.2.image with
         | some _ => none
         | none => if rawEnabled then kg.2.raw else none),
       groups.countP (fun kg =>
         rawEnabled && kg.2.image.isSome && kg.2.raw.isSome)) := by
  unfold selectFiles
  rw [selectFiles_go]
  simp

/-- Lookup in the insertion-ordered group map. -/
def lookupGroup (k : List Char) : List (List Char × FileGroup) → Option FileGroup
  | [] => none
  | (k1, g) :: rest => if k1 = k then some g else lookupGroup k rest

/-- The standard-image slot stored under key `k`. -/
def imageSlot (k : List Char) (groups : List (List Char × FileGroup)) :
    Option (List Char) :=
  match lookupGroup k groups with
  | none => none
  | some g => g.image

/-- All non-system standard-image walk entries whose lowercased stem is
`k`, in walk order - the writers of group `k`'s image slot. -/
def imageSlotEntries (k : List Char) (walk : List WalkEntry) : List (List Char) :=
  walk.filterMap (fun e =>
    if !isSysFile e.fname && isImageName e.fname && decide (stemOf e.fname = k) then
      some e.path
    else none)

lemma lookupGroup_updateGroup_self (k : List Char) (f : FileGroup → FileGroup)
    (groups : List (List Char × FileGroup)) :
    lookupGroup k (updateGroup k f groups) =
      some (f ((lookupGroup k groups).getD emptyGroup)) := by
  induction groups with
  | nil => simp [updateGroup, lookupGroup]
  | cons kg rest ih =>
    obtain ⟨k1, g⟩ := kg
    by_cases h : k1 = k
    · subst h
      simp [updateGroup, lookupGroup]
    · simp [updateGroup, lookupGroup, h, ih]

lemma lookupGroup_updateGroup_ne {k k1 : List Char} (h : k1 ≠ k)
    (f : FileGroup → FileGroup) (groups : List (List Char × FileGroup)) :
    lookupGroup k (updateGroup k1 f groups) = lookupGroup k groups := by
  induction groups with
  | nil => simp [updateGroup, lookupGroup, h]
  | cons kg rest ih =>
    obtain ⟨k2, g⟩ := kg
    by_cases h2 : k2 = k1
    · subst h2
      simp [updateGroup, lookupGroup, h]
    · by_cases h3 : k2 = k
      · subst h3
        simp [updateGroup, lookupGroup, h2]
      · simp [updateGroup, lookupGroup, h2, h3, ih]

lemma imageSlot_scanStep (st : List (List Char × FileGroup) × Nat) (e : WalkEntry)
    (k : List Char) :
    imageSlot k (scanStep st e).1 =
      if !isSysFile e.fname && isImageName e.fname && decide (stemOf e.fname = k) then
        some e.path
      else imageSlot k st.1 := by
  unfold scanStep
  by_cases hs : isSysFile e.fname
  · simp [hs]
  · by_cases hi : isImageName e.fname
    · by_cases hk : stemOf e.fname = k
      · subst hk
        simp [hs, hi, imageSlot, lookupGroup_updateGroup_self]
      · simp [hs, hi, hk, imageSlot, lookupGroup_updateGroup_ne hk]
    · by_cases hr : isRawName e.fname
      · by_cases hk : stemOf e.fname = k
        · subst hk
          simp only [hs, hi, hr, Bool.false_and, Bool.and_false, Bool.not_false,
            Bool.true_and, if_false, if_true, Bool.false_eq_true, imageSlot,
            lookupGroup_updateGroup_self]
          cases lookupGroup (stemOf e.fname) st.1 <;> simp [emptyGroup]
        · simp [hs, hi, hr, hk, imageSlot, lookupGroup_updateGroup_ne hk]
      · simp [hs, hi, hr]

lemma scanGroups_concat (walk : List WalkEntry) (e : WalkEntry) :
    scanGroups (walk ++ [e]) = scanStep (scanGroups walk) e := by
  unfold scanGroups
  rw [List.foldl_append]
  rfl

lemma imageSlot_scanGroups (walk : List WalkEntry) (k : List Char) :
    imageSlot k (scanGroups walk).1 = (imageSlotEntries k walk).getLast? := by
  induction walk using List.reverseRecOn with
  | nil => simp [scanGroups, imageSlot, lookupGroup, imageSlotEntries]
  | append_singleton rest e ih =>
    rw [scanGroups_concat, imageSlot_scanStep]
    unfold imageSlotEntries
    rw [List.filterMap_append]
    by_cases hc : (!isSysFile e.fname && isImageName e.fname &&
        decide (stemOf e.fname = k)) = true
    · have hone : List.filterMap (fun e2 =>
          if !isSysFile e2.fname && isImageName e2.fname && decide (stemOf e2.fname = k) then
            some e2.path
          else none) [e] = [e.path] := by
        simp only [List.filterMap_cons, List.filterMap_nil]
        rw [if_pos hc]
      rw [if_pos hc, hone, List.getLast?_concat]
    · rw [if_neg hc]
      have : List.filterMap (fun e2 =>
          if !isSysFile e2.fname && isImageName e2.fname && decide (stemOf e2.fname = k) then
            some e2.path
          else none) [e] = [] := by
        simp only [List.filterMap_cons, List.filterMap_nil]
        rw [if_neg hc]
      rw [this, List.append_nil]
      exact ih

lemma sys_scanGo (walk : List WalkEntry) (st : List (List Char × FileGroup) × Nat) :
    (walk.foldl scanStep st).2 = st.2 + walk.countP (fun e => isSysFile e.fname) := by
  induction walk generalizing st with
  | nil => simp
  | cons e rest ih =>
    rw [List.foldl_cons, ih, List.countP_cons]
    unfold scanStep
    by_cases hs : isSysFile e.fname
    · simp [hs]
      omega
    · by_cases hi : isImageName e.fname
      · simp [hs, hi]
      · by_cases hr : isRawName e.fname
        · simp [hs, hi, hr]
        · simp [hs, hi, hr]

lemma sys_scanGroups (walk : List WalkEntry) :
    (scanGroups walk).2 = walk.countP (fun e => isSysFile e.fname) := by
  unfold scanGroups
  rw [sys_scanGo]
  simp

lemma keys_updateGroup (k : List Char) (f : FileGroup → FileGroup)
    (groups : List (List Char × FileGroup)) :
    (updateGroup k f groups).map (fun kg => kg.1) =
      if k ∈ groups.map (fun kg => kg.1) then groups.map (fun kg => kg.1)
      else groups.map (fun kg => kg.1) ++ [k] := by
  induction groups with
  | nil => simp [updateGroup]
  | cons kg rest ih =>
    obtain ⟨k1, g⟩ := kg
    by_cases h : k1 = k
    · subst h
      simp only [updateGroup, if_pos rfl, if_true, List.map_cons]
      rw [if_pos (List.mem_cons_self _ _)]
    · have hne : ¬ k = k1 := fun hkk => h hkk.symm
      simp only [updateGroup, if_neg h, List.map_cons, ih]
      by_cases hm : k ∈ rest.map (fun kg => kg.1)
      · rw [if_pos hm, if_pos (by simp [hm])]
      · rw [if_neg hm, if_neg (by simp [hne, hm])]
        rfl

lemma nodup_keys_updateGroup (k : List Char) (f : FileGroup → FileGroup)
    {groups : List (List Char × FileGroup)}
    (h : (groups.map (fun kg => kg.1)).Nodup) :
    ((updateGroup k f groups).map (fun kg => kg.1)).Nodup := by
  rw [keys_updateGroup]
  by_cases hm : k ∈ groups.map (fun kg => kg.1)
  · rwa [if_pos hm]
  · rw [if_neg hm]
    simp [List.nodup_append, h, hm]

lemma nodup_keys_scanGo (walk : List WalkEntry)
    (st : List (List Char × FileGroup) × Nat)
    (h : (st.1.map (fun kg => kg.1)).Nodup) :
    (((walk.foldl scanStep st).1).map (fun kg => kg.1)).Nodup := by
  induction walk generalizing st with
  | nil => simpa using h
  | cons e rest ih =>
    rw [List.foldl_cons]
    apply ih
    unfold scanStep
    by_cases hs : isSysFile e.fname
    · simpa [hs] using h
    · by_cases hi : isImageName e.fname
      · simpa [hs, hi] using nodup_keys_updateGroup _ _ h
      · by_cases hr : isRawName e.fname
        · simpa [hs, hi, hr] using nodup_keys_updateGroup _ _ h
        · simpa [hs, hi, hr] using h

lemma nodup_keys_scanGroups (walk : List WalkEntry) :
    (((scanGroups walk).1).map (fun kg => kg.1)).Nodup := by
  unfold scanGroups
  exact nodup_keys_scanGo walk ([], 0) (by simp)

lemma lookupGroup_of_mem {groups : List (List Char × FileGroup)}
    {kg : List Char × FileGroup} (hmem : kg ∈ groups)
    (hnd : (groups.map (fun q => q.1)).Nodup) :
    lookupGroup kg.1 groups = some kg.2 := by
  induction groups with
  | nil => cases hmem
  | cons hd rest ih =>
    rcases List.mem_cons.mp hmem with heq | hrest
    · subst heq
      obtain ⟨k1, g⟩ := kg
      simp [lookupGroup]
    · simp only [List.map_cons] at hnd
      obtain ⟨hd1, hdrest⟩ := List.nodup_cons.mp hnd
      have hne : hd.1 ≠ kg.1 := by
        intro hcontra
        apply hd1
        rw [hcontra]
        exact List.mem_map.mpr ⟨kg, hrest, rfl⟩
      obtain ⟨k1, g⟩ := hd
      simp only [lookupGroup]
      rw [if_neg (by simpa using hne)]
      exact ih hrest hdrest

/-- Claim C7: selection from the scanned groups: the image lists are
exactly the filled image slots; the RAW list draws only from groups
with no image (so a RAW sharing its group with an image is never added
to the RAW work list and the group never selects both); and with RAW
processing enabled `skip_files` counts exactly the groups holding both
an image and a RAW, one each. The concrete `a.jpg`/`a.cr2` scenario of
the spec selects only `a.jpg` with `skip_files = 1` and an empty RAW
list. -/
theorem claimC7_group_dedup :
    (∀ (rawEnabled : Bool) (groups : List (List Char × FileGroup)),
      (selectFiles rawEnabled groups).1 = groups.filterMap (fun kg => kg.2.image) ∧
      (selectFiles rawEnabled groups).2.1 = groups.filterMap (fun kg =>
        match kg.2.image with
        | some _ => none
        | none => if rawEnabled then kg.2.raw else none) ∧
      (selectFiles rawEnabled groups).2.2 = groups.countP (fun kg =>
        rawEnabled && kg.2.image.isSome && kg.2.raw.isSome)) ∧
    (∀ (rawEnabled : Bool) (groups : List (List Char × FileGroup)) (r : List Char),
      (∀ kg ∈ groups, kg.2.raw = some r → kg.2.image.isSome) →
      r ∉ (selectFiles rawEnabled groups).2.1) ∧
    selectFiles true (scanGroups
      [⟨str "d", str "a.jpg"⟩, ⟨str "d", str "a.cr2"⟩]).1 =
      ([str "d/a.jpg"], [], 1) := by
  refine ⟨?_, ?_, by decide⟩
  · intro rawEnabled groups
    rw [selectFiles_eq]
    exact ⟨rfl, rfl, rfl⟩
  · intro rawEnabled groups r hall hin
    rw [selectFiles_eq] at hin
    simp only at hin
    obtain ⟨kg, hkg, heq⟩ := List.mem_filterMap.mp hin
    rcases himg : kg.2.image with _ | p
    · rw [himg] at heq
      by_cases hre : rawEnabled = true
      · rw [hre, if_pos rfl] at heq
        have := hall kg hkg heq
        rw [himg] at this
        simp at this
      · have : rawEnabled = false := by
          cases rawEnabled
          · rfl
          · exact absurd rfl hre
        rw [this] at heq
        simp at heq
    · rw [himg] at heq
      simp at heq

/-- Witness for C7: in the concrete `a.jpg`/`a.cr2` scan, the RAW file
is absent from the RAW work list. -/
theorem claimC7_group_dedup_witness :
    str "d/a.cr2" ∉ (selectFiles true (scanGroups
      [⟨str "d", str "a.jpg"⟩, ⟨str "d", str "a.cr2"⟩]).1).2.1 :=
  claimC7_group_dedup.2.1 true _ (str "d/a.cr2") (by decide)

/-- Claim C10: grouping is keyed by lowercased stem across the whole
walk, not per directory: the image slot of key `k` is the last matching
non-system image entry anywhere in the walk (the later overwrites the
earlier); the scanner's keys are distinct, so at most one standard
image per key is ever selected; the system counter counts exactly the
underscore-named files and `skip_files` counts only image-and-RAW
groups, so a shadowed image file is not in the selected list or the
work list while being counted in neither counter. -/
theorem claimC10_basename_shadowing :
    (∀ (walk : List WalkEntry) (k : List Char),
      imageSlot k (scanGroups walk).1 = (imageSlotEntries k walk).getLast?) ∧
    (∀ walk : List WalkEntry, ((scanGroups walk).1.map (fun kg => kg.1)).Nodup) ∧
    (∀ walk : List WalkEntry,
      (scanGroups walk).2 = walk.countP (fun e => isSysFile e.fname)) ∧
    (∀ (walk : List WalkEntry) (rawEnabled : Bool),
      (selectFiles rawEnabled (scanGroups walk).1).2.2 =
        (scanGroups walk).1.countP (fun kg =>
          rawEnabled && kg.2.image.isSome && kg.2.raw.isSome)) ∧
    (∀ (walk : List WalkEntry) (rawEnabled : Bool) (k f : List Char),
      f ∈ imageSlotEntries k walk →
      (imageSlotEntries k walk).getLast? ≠ some f →
      (∀ e ∈ walk, e.path = f →
        (!isSysFile e.fname && isImageName e.fname) = true → stemOf e.fname = k) →
      f ∉ (selectFiles rawEnabled (scanGroups walk).1).1 ∧
      ∀ (fsExists : List Char → Bool) (outDir : List Char),
        f ∉ standardWorkList fsExists outDir rawEnabled walk) := by
  refine ⟨imageSlot_scanGroups, nodup_keys_scanGroups, sys_scanGroups, ?_, ?_⟩
  · intro walk rawEnabled
    rw [selectFiles_eq]
  · intro walk rawEnabled k f hmem hlast huniq
    have himg : f ∉ (selectFiles rawEnabled (scanGroups walk).1).1 := by
      intro hin
      rw [selectFiles_eq] at hin
      simp only at hin
      obtain ⟨kg, hkg, himgeq⟩ := List.mem_filterMap.mp hin
      have hlook := lookupGroup_of_mem hkg (nodup_keys_scanGroups walk)
      have hslot : imageSlot kg.1 (scanGroups walk).1 = some f := by
        unfold imageSlot
        rw [hlook]
        exact himgeq
      rw [imageSlot_scanGroups] at hslot
      have hf2 : f ∈ imageSlotEntries kg.1 walk := by
        obtain ⟨hne, heq⟩ := List.mem_getLast?_eq_getLast
          (show f ∈ (imageSlotEntries kg.1 walk).getLast? from hslot)
        rw [heq]
        exact List.getLast_mem hne
      obtain ⟨e, hewalk, hcond⟩ := List.mem_filterMap.mp hf2
      have hcondsplit : (!isSysFile e.fname && isImageName e.fname &&
          decide (stemOf e.fname = kg.1)) = true ∧ e.path = f := by
        by_cases hb : (!isSysFile e.fname && isImageName e.fname &&
            decide (stemOf e.fname = kg.1)) = true
        · rw [if_pos hb] at hcond
          exact ⟨hb, by injection hcond⟩
        · rw [if_neg hb] at hcond
          cases hcond
      have hstem : stemOf e.fname = kg.1 := by
        have := hcondsplit.1
        simp only [Bool.and_eq_true, decide_eq_true_eq] at this
        exact this.2
      have hclass : (!isSysFile e.fname && isImageName e.fname) = true := by
        have := hcondsplit.1
        simp only [Bool.and_eq_true] at this
        simp [this.1.1, this.1.2]
      have hk : kg.1 = k := by
        rw [← hstem]
        exact huniq e hewalk hcondsplit.2 hclass
      rw [hk] at hslot
      exact hlast hslot
    refine ⟨himg, ?_⟩
    intro fsExists outDir hin
    unfold standardWorkList at hin
    exact himg (List.mem_of_mem_filter hin)

/-- Witness for C10: `d1/a.jpg` is shadowed by the later `d2/A.JPG`
(same lowercased stem `a` in another directory) and is not selected. -/
theorem claimC10_basename_shadowing_witness :
    str "d1/a.jpg" ∉ (selectFiles true (scanGroups
      [⟨str "d1", str "a.jpg"⟩, ⟨str "d2", str "A.JPG"⟩]).1).1 :=
  (claimC10_basename_shadowing.2.2.2.2
    [⟨str "d1", str "a.jpg"⟩, ⟨str "d2", str "A.JPG"⟩] true (str "a") (str "d1/a.jpg")
    (by decide) (by decide) (by decide)).1

lemma processImage_eq (att : Nat → Bool) (f : List Char) :
    processImage att f = if att 0 || att 1 || att 2 then (true, [])
      else (false, [(f, ErrSrc.pipelineEntry)]) := by
  unfold processImage JPG_RETRY_COUNT
  by_cases h0 : att 0 = true
  · simp [processImageFrom, h0]
  · simp only [Bool.not_eq_true] at h0
    by_cases h1 : att 1 = true
    · simp [processImageFrom, h0, h1]
    · simp only [Bool.not_eq_true] at h1
      by_cases h2 : att 2 = true
      · simp [processImageFrom, h0, h1, h2]
      · simp only [Bool.not_eq_true] at h2
        simp [processImageFrom, h0, h1, h2]

/-- Whether some attempt of the standard pipeline succeeds for `f`. -/
def stdSucceeds (att : List Char → Nat → Bool) (f : List Char) : Bool :=
  att f 0 || att f 1 || att f 2

lemma stdStep_eq (outDir : List Char) (att : List Char → Nat → Bool)
    (acc : StageAcc) (f : List Char) :
    stdStep outDir att acc f =
      if stdSucceeds att f then
        { acc with processed := acc.processed + 1,
                   writes := acc.writes ++ [outputJpgOf outDir f] }
      else
        { acc with errlog := acc.errlog ++
            [(f, ErrSrc.pipelineEntry), (f, ErrSrc.schedulerEntry)] } := by
  unfold stdStep stdSucceeds
  by_cases h : (att f 0 || att f 1 || att f 2) = true
  · simp only [processImage_eq, if_pos h, if_true]
  · simp only [processImage_eq, if_neg h]
    simp only [Bool.not_eq_true] at h
    simp [h]

lemma stdStage_spec (outDir : List Char) (att : List Char → Nat → Bool)
    (files : List (List Char)) (init : StageAcc) :
    (stdStage outDir att files init).processed =
      init.processed + files.countP (stdSucceeds att) ∧
    (stdStage outDir att files init).errlog =
      init.errlog ++ files.flatMap (fun f =>
        if stdSucceeds att f then []
        else [(f, ErrSrc.pipelineEntry), (f, ErrSrc.schedulerEntry)]) ∧
    (stdStage outDir att files init).writes =
      init.writes ++ (files.filter (stdSucceeds att)).map (outputJpgOf outDir) := by
  induction files generalizing init with
  | nil => simp [stdStage]
  | cons f rest ih =>
    unfold stdStage at ih ⊢
    rw [List.foldl_cons]
    obtain ⟨ihp, ihe, ihw⟩ := ih (stdStep outDir att init f)
    refine ⟨?_, ?_, ?_⟩
    · rw [ihp, stdStep_eq]
      by_cases h : stdSucceeds att f = true
      · simp only [if_pos h, List.countP_cons, h]
        simp
        omega
      · simp only [Bool.not_eq_true] at h
        simp only [h, if_false, List.countP_cons, Bool.false_eq_true]
        simp
    · rw [ihe, stdStep_eq]
      by_cases h : stdSucceeds att f = true
      · simp [h]
      · simp only [Bool.not_eq_true] at h
        simp [h]
    · rw [ihw, stdStep_eq]
      by_cases h : stdSucceeds att f = true
      · simp [h]
      · simp only [Bool.not_eq_true] at h
        simp [h]

lemma rawStage_spec (outDir : List Char) (rawOk : List Char → Bool)
    (files : List (List Char)) (init : StageAcc) :
    (rawStage outDir rawOk files init).processed =
      init.processed + files.countP rawOk ∧
    (rawStage outDir rawOk files init).errlog =
      init.errlog ++ (files.filter (fun f => !rawOk f)).map
        (fun f => (f, ErrSrc.rawEntry)) ∧
    (rawStage outDir rawOk files init).writes =
      init.writes ++ (files.filter rawOk).map (outputJpgOf outDir) := by
  induction files generalizing init with
  | nil => simp [rawStage]
  | cons f rest ih =>
    unfold rawStage at ih ⊢
    rw [List.foldl_cons]
    obtain ⟨ihp, ihe, ihw⟩ := ih (rawStep outDir rawOk init f)
    refine ⟨?_, ?_, ?_⟩
    · rw [ihp]
      unfold rawStep
      by_cases h : rawOk f = true
      · simp [h, List.countP_cons]
        omega
      · simp only [Bool.not_eq_true] at h
        simp [h, List.countP_cons]
    · rw [ihe]
      unfold rawStep
      by_cases h : rawOk f = true
      · simp [h]
      · simp only [Bool.not_eq_true] at h
        simp [h]
    · rw [ihw]
      unfold rawStep
      by_cases h : rawOk f = true
      · simp [h]
      · simp only [Bool.not_eq_true] at h
        simp [h]

lemma entriesFor_append (f : List Char) (l1 l2 : List ErrEntry) :
    entriesFor f (l1 ++ l2) = entriesFor f l1 + entriesFor f l2 := by
  unfold entriesFor
  rw [List.countP_append]

lemma entriesFor_flatMap_zero {f : List Char} {files : List (List Char)}
    (contrib : List Char → List ErrEntry)
    (hown : ∀ g e, e ∈ contrib g → e.1 = g)
    (hnot : f ∉ files) :
    entriesFor f (files.flatMap contrib) = 0 := by
  induction files with
  | nil => simp [entriesFor]
  | cons g rest ih =>
    rw [List.flatMap_cons, entriesFor_append]
    have hgf : g ≠ f := by
      intro heq
      exact hnot (heq ▸ List.mem_cons_self g rest)
    have h1 : entriesFor f (contrib g) = 0 := by
      unfold entriesFor
      rw [List.countP_eq_zero]
      intro e he
      simp [hown g e he, hgf]
    rw [h1, ih (fun hmem => hnot (List.mem_cons_of_mem g hmem))]

lemma entriesFor_flatMap_one {f : List Char} {files : List (List Char)}
    (contrib : List Char → List ErrEntry)
    (hown : ∀ g e, e ∈ contrib g → e.1 = g)
    (hcount : files.count f = 1) :
    entriesFor f (files.flatMap contrib) = (contrib f).length := by
  induction files with
  | nil => simp at hcount
  | cons g rest ih =>
    rw [List.flatMap_cons, entriesFor_append]
    by_cases hgf : g = f
    · subst hgf
      have hz : rest.count g = 0 := by
        rw [List.count_cons_self] at hcount
        omega
      have hrest : g ∉ rest := by
        rw [← List.count_eq_zero]
        exact hz
      have h2 := entriesFor_flatMap_zero contrib hown hrest
      have h1 : entriesFor g (contrib g) = (contrib g).length := by
        unfold entriesFor
        rw [List.countP_eq_length]
        intro e he
        simp [hown g e he]
      omega
    · have h1 : entriesFor f (contrib g) = 0 := by
        unfold entriesFor
        rw [List.countP_eq_zero]
        intro e he
        simp [hown g e he, hgf]
      rw [List.count_cons_of_ne (fun heq => hgf heq.symm)] at hcount
      rw [h1, ih hcount]
      omega

/-- Claim C1 counterexample: a lone standard image whose processing
fails on all 3 attempts ends the run with TWO error-log entries naming
that file, not exactly one: `process_image` logs once on the last
failed attempt (line 188) and the run loop logs `处理失败` again when
it polls the False result (line 445). -/
theorem claimC1_counterexample :
    entriesFor (str "a.jpg")
      (runModel (str "out") (fun _ => false) (fun _ _ => false) (fun _ => false) false
        [⟨[], str "a.jpg"⟩]).errlog = 2 ∧
    ¬ entriesFor (str "a.jpg")
      (runModel (str "out") (fun _ => false) (fun _ _ => false) (fun _ => false) false
        [⟨[], str "a.jpg"⟩]).errlog = 1 := by
  constructor
  · decide
  · decide

/-- Claim C1 (amended): `process_image` itself appends exactly one
error-log entry after the third failed attempt and returns False to
the run loop without raising; the run loop then appends a second,
generic entry for the same file, so a standard image failing all 3
attempts ends the completed run with exactly TWO error-log entries (not
one); a decode failing at first but succeeding on a later attempt is
recorded as a success: no error-log entry for it, and it is counted in
`processed_files` (which counts exactly the files with a successful
attempt). -/
theorem claimC1_amended :
    (∀ (att : Nat → Bool) (f : List Char),
      att 0 = false → att 1 = false → att 2 = false →
      processImage att f = (false, [(f, ErrSrc.pipelineEntry)])) ∧
    (∀ (att : Nat → Bool) (f : List Char),
      (att 0 || att 1 || att 2) = true → processImage att f = (true, [])) ∧
    (∀ (outDir : List Char) (att : List Char → Nat → Bool)
       (files : List (List Char)) (f : List Char),
      files.count f = 1 →
      (stdSucceeds att f = false →
        entriesFor f (stdStage outDir att files ⟨0, [], []⟩).errlog = 2) ∧
      (stdSucceeds att f = true →
        entriesFor f (stdStage outDir att files ⟨0, [], []⟩).errlog = 0)) ∧
    (∀ (outDir : List Char) (att : List Char → Nat → Bool)
       (files : List (List Char)),
      (stdStage outDir att files ⟨0, [], []⟩).processed =
        files.countP (stdSucceeds att)) := by
  refine ⟨?_, ?_, ?_, ?_⟩
  · intro att f h0 h1 h2
    rw [processImage_eq]
    simp [h0, h1, h2]
  · intro att f h
    rw [processImage_eq, if_pos h]
  · intro outDir att files f hcount
    have hspec := (stdStage_spec outDir att files ⟨0, [], []⟩).2.1
    have hown : ∀ (g : List Char) (e : ErrEntry),
        e ∈ (fun f2 => if stdSucceeds att f2 then ([] : List ErrEntry)
          else [(f2, ErrSrc.pipelineEntry), (f2, ErrSrc.schedulerEntry)]) g → e.1 = g := by
      intro g e he
      simp only [] at he
      by_cases hg : stdSucceeds att g = true
      · rw [if_pos hg] at he
        cases he
      · rw [if_neg hg] at he
        simp only [List.mem_cons, List.not_mem_nil, or_false] at he
        rcases he with he | he <;> rw [he]
    constructor
    · intro hfail
      rw [hspec]
      have := entriesFor_flatMap_one _ hown hcount
      rw [entriesFor_append, this]
      simp [entriesFor, hfail]
    · intro hsucc
      rw [hspec]
      have := entriesFor_flatMap_one _ hown hcount
      rw [entriesFor_append, this]
      simp [entriesFor, hsucc]
  · intro outDir att files
    have := (stdStage_spec outDir att files ⟨0, [], []⟩).1
    simpa using this

/-- Witness for the amended C1: one failing file and one
retry-then-succeeding file. -/
theorem claimC1_amended_witness :
    processImage (fun _ => false) (str "a.jpg") =
      (false, [(str "a.jpg", ErrSrc.pipelineEntry)]) ∧
    processImage (fun n => n == 1) (str "b.jpg") = (true, []) ∧
    entriesFor (str "a.jpg")
      (stdStage (str "out") (fun _ _ => false) [str "a.jpg"] ⟨0, [], []⟩).errlog = 2 :=
  ⟨claimC1_amended.1 (fun _ => false) (str "a.jpg") rfl rfl rfl,
   claimC1_amended.2.1 (fun n => n == 1) (str "b.jpg") (by decide),
   (claimC1_amended.2.2.1 (str "out") (fun _ _ => false) [str "a.jpg"] (str "a.jpg")
      (by decide)).1 (by decide)⟩

/-- Number of filled slots in one group. -/
def groupSlots (g : FileGroup) : Nat :=
  (if g.image.isSome then 1 else 0) + (if g.raw.isSome then 1 else 0)

/-- Total filled slots across the group map. -/
def slotsOf (groups : List (List Char × FileGroup)) : Nat :=
  (groups.map (fun kg => groupSlots kg.2)).sum

lemma slotsOf_updateGroup (k : List Char) (f : FileGroup → FileGroup)
    (hf : ∀ g, groupSlots (f g) ≤ groupSlots g + 1)
    (groups : List (List Char × FileGroup)) :
    slotsOf (updateGroup k f groups) ≤ slotsOf groups + 1 := by
  induction groups with
  | nil =>
    have h1 := hf emptyGroup
    have h2 : groupSlots emptyGroup = 0 := by simp [emptyGroup, groupSlots]
    simp only [updateGroup, slotsOf, List.map_cons, List.map_nil, List.sum_cons,
      List.sum_nil]
    omega
  | cons kg rest ih =>
    obtain ⟨k1, g⟩ := kg
    by_cases h : k1 = k
    · subst h
      simp only [updateGroup, if_pos rfl, if_true, slotsOf, List.map_cons, List.sum_cons]
      have := hf g
      simp only [slotsOf] at *
      omega
    · simp only [updateGroup, if_neg h, slotsOf, List.map_cons, List.sum_cons]
      simp only [slotsOf] at ih
      omega

lemma groupSlots_setImage (p : List Char) (g : FileGroup) :
    groupSlots { g with image := some p } ≤ groupSlots g + 1 := by
  obtain ⟨gi, gr⟩ := g
  simp only [groupSlots]
  split_ifs <;> omega

lemma groupSlots_setRaw (p : List Char) (g : FileGroup) :
    groupSlots { g with raw := some p } ≤ groupSlots g + 1 := by
  obtain ⟨gi, gr⟩ := g
  simp only [groupSlots]
  split_ifs <;> omega

lemma scanGo_slots (walk : List WalkEntry) (st : List (List Char × FileGroup) × Nat) :
    slotsOf (walk.foldl scanStep st).1 + (walk.foldl scanStep st).2 ≤
      slotsOf st.1 + st.2 + walk.length := by
  induction walk generalizing st with
  | nil => simp
  | cons e rest ih =>
    rw [List.foldl_cons]
    have h := ih (scanStep st e)
    have hstep : slotsOf (scanStep st e).1 + (scanStep st e).2 ≤
        slotsOf st.1 + st.2 + 1 := by
      unfold scanStep
      by_cases hs : isSysFile e.fname
      · simp only [hs, if_true]
        omega
      · by_cases hi : isImageName e.fname
        · simp only [hs, hi, Bool.false_eq_true, if_false, if_true]
          have := slotsOf_updateGroup (stemOf e.fname)
            (fun g => { g with image := some e.path }) (groupSlots_setImage e.path) st.1
          omega
        · by_cases hr : isRawName e.fname
          · simp only [hs, hi, hr, Bool.false_eq_true, if_false, if_true]
            have := slotsOf_updateGroup (stemOf e.fname)
              (fun g => { g with raw := some e.path }) (groupSlots_setRaw e.path) st.1
            omega
          · simp [hs, hi, hr]
    have hlen : (e :: rest).length = rest.length + 1 := by simp
    omega

lemma scanGroups_slots (walk : List WalkEntry) :
    slotsOf (scanGroups walk).1 + (scanGroups walk).2 ≤ walk.length := by
  have := scanGo_slots walk ([], 0)
  simpa [scanGroups, slotsOf] using this

lemma select_go_le (rawEnabled : Bool) (groups : List (List Char × FileGroup))
    (acc : List (List Char) × List (List Char) × Nat) :
    (groups.foldl (selectStep rawEnabled) acc).1.length +
      (groups.foldl (selectStep rawEnabled) acc).2.1.length +
      (groups.foldl (selectStep rawEnabled) acc).2.2 ≤
      acc.1.length + acc.2.1.length + acc.2.2 + slotsOf groups := by
  induction groups generalizing acc with
  | nil => simp [slotsOf]
  | cons kg rest ih =>
    rw [List.foldl_cons]
    have h := ih (selectStep rawEnabled acc kg)
    have hstep : (selectStep rawEnabled acc kg).1.length +
        (selectStep rawEnabled acc kg).2.1.length +
        (selectStep rawEnabled acc kg).2.2 ≤
        acc.1.length + acc.2.1.length + acc.2.2 + groupSlots kg.2 := by
      obtain ⟨k, gi, gr⟩ := kg
      unfold selectStep
      cases gi <;> cases gr <;> cases rawEnabled <;>
        simp [groupSlots] <;> omega
    have hslots : slotsOf (kg :: rest) = groupSlots kg.2 + slotsOf rest := by
      simp [slotsOf]
    omega

lemma select_le_slots (rawEnabled : Bool) (groups : List (List Char × FileGroup)) :
    (selectFiles rawEnabled groups).1.length +
      (selectFiles rawEnabled groups).2.1.length +
      (selectFiles rawEnabled groups).2.2 ≤ slotsOf groups := by
  have := select_go_le rawEnabled groups ([], [], 0)
  simpa [selectFiles] using this

/-- Per-file failure count read off the error log: the entries logged
by `process_image` or `process_raw` themselves - one per failed file -
excluding the run loop's duplicate entry. -/
def failedEntryCount (log : List ErrEntry) : Nat :=
  log.countP (fun e => !decide (e.2 = ErrSrc.schedulerEntry))

lemma errCounts_stdContrib (att : List Char → Nat → Bool) (files : List (List Char)) :
    failedEntryCount (files.flatMap (fun f =>
        if stdSucceeds att f then ([] : List ErrEntry)
        else [(f, ErrSrc.pipelineEntry), (f, ErrSrc.schedulerEntry)])) =
      files.countP (fun f => !stdSucceeds att f) ∧
    (files.flatMap (fun f =>
        if stdSucceeds att f then ([] : List ErrEntry)
        else [(f, ErrSrc.pipelineEntry), (f, ErrSrc.schedulerEntry)])).countP
        (fun e => decide (e.2 = ErrSrc.schedulerEntry)) =
      files.countP (fun f => !stdSucceeds att f) ∧
    (files.flatMap (fun f =>
        if stdSucceeds att f then ([] : List ErrEntry)
        else [(f, ErrSrc.pipelineEntry), (f, ErrSrc.schedulerEntry)])).countP
        (fun e => decide (e.2 = ErrSrc.pipelineEntry)) =
      files.countP (fun f => !stdSucceeds att f) := by
  unfold failedEntryCount
  induction files with
  | nil => simp
  | cons f rest ih =>
    rw [List.flatMap_cons]
    obtain ⟨ih1, ih2, ih3⟩ := ih
    by_cases h : stdSucceeds att f = true
    · refine ⟨?_, ?_, ?_⟩ <;>
        simp [h, List.countP_cons, ih1, ih2, ih3]
    · simp only [Bool.not_eq_true] at h
      refine ⟨?_, ?_, ?_⟩ <;>
        simp [h, List.countP_cons, List.countP_append, ih1, ih2, ih3]

lemma errCounts_rawContrib (rawOk : List Char → Bool) (files : List (List Char)) :
    failedEntryCount ((files.filter (fun f => !rawOk f)).map
        (fun f => (f, ErrSrc.rawEntry))) =
      files.countP (fun f => !rawOk f) ∧
    ((files.filter (fun f => !rawOk f)).map
        (fun f => (f, ErrSrc.rawEntry))).countP
        (fun e => decide (e.2 = ErrSrc.schedulerEntry)) = 0 ∧
    ((files.filter (fun f => !rawOk f)).map
        (fun f => (f, ErrSrc.rawEntry))).countP
        (fun e => decide (e.2 = ErrSrc.pipelineEntry)) = 0 := by
  unfold failedEntryCount
  rw [List.countP_map, List.countP_map, List.countP_map]
  refine ⟨?_, ?_, ?_⟩
  · have : ((fun e : ErrEntry => !decide (e.2 = ErrSrc.schedulerEntry)) ∘
        (fun f => (f, ErrSrc.rawEntry))) = fun _ => true := by
      funext g
      simp
    rw [this]
    rw [List.countP_true]
    exact (List.countP_eq_length_filter _ _).symm
  · have : ((fun e : ErrEntry => decide (e.2 = ErrSrc.schedulerEntry)) ∘
        (fun f => (f, ErrSrc.rawEntry))) = fun _ => false := by
      funext g
      simp
    rw [this, List.countP_false]
    rfl
  · have : ((fun e : ErrEntry => decide (e.2 = ErrSrc.pipelineEntry)) ∘
        (fun f => (f, ErrSrc.rawEntry))) = fun _ => false := by
      funext g
      simp
    rw [this, List.countP_false]
    rfl

lemma runModel_spec (outDir : List Char) (fsExists : List Char → Bool)
    (att : List Char → Nat → Bool) (rawOk : List Char → Bool)
    (rawEnabled : Bool) (walk : List WalkEntry) :
    (runModel outDir fsExists att rawOk rawEnabled walk).processed =
      (standardWorkList fsExists outDir rawEnabled walk).countP (stdSucceeds att) +
      (if rawEnabled then (rawWorkList rawEnabled walk).countP rawOk else 0) ∧
    (runModel outDir fsExists att rawOk rawEnabled walk).errlog =
      (standardWorkList fsExists outDir rawEnabled walk).flatMap (fun f =>
        if stdSucceeds att f then ([] : List ErrEntry)
        else [(f, ErrSrc.pipelineEntry), (f, ErrSrc.schedulerEntry)]) ++
      (if rawEnabled then
        ((rawWorkList rawEnabled walk).filter (fun f => !rawOk f)).map
          (fun f => (f, ErrSrc.rawEntry)) else []) ∧
    (runModel outDir fsExists att rawOk rawEnabled walk).skipFiles =
      (selectFiles rawEnabled (scanGroups walk).1).2.2 ∧
    (runModel outDir fsExists att rawOk rawEnabled walk).sysFiles =
      (scanGroups walk).2 ∧
    (runModel outDir fsExists att rawOk rawEnabled walk).totalFiles =
      (standardWorkList fsExists outDir rawEnabled walk).length +
      (rawWorkList rawEnabled walk).length ∧
    (runModel outDir fsExists att rawOk rawEnabled walk).writes =
      ((standardWorkList fsExists outDir rawEnabled walk).filter
        (stdSucceeds att)).map (outputJpgOf outDir) ++
      (if rawEnabled then
        ((rawWorkList rawEnabled walk).filter rawOk).map (outputJpgOf outDir)
       else []) := by
  cases rawEnabled with
  | true =>
    obtain ⟨hsp, hse, hsw⟩ := stdStage_spec outDir att
      ((selectFiles true (scanGroups walk).1).1.filter
        (fun f => !(isProcessed fsExists outDir f))) ⟨0, [], []⟩
    obtain ⟨hrp, hrre, hrw⟩ := rawStage_spec outDir rawOk
      (selectFiles true (scanGroups walk).1).2.1
      (stdStage outDir att
        ((selectFiles true (scanGroups walk).1).1.filter
          (fun f => !(isProcessed fsExists outDir f))) ⟨0, [], []⟩)
    refine ⟨?_, ?_, ?_, ?_, ?_, ?_⟩ <;>
      simp [runModel, standardWorkList, rawWorkList, hrp, hsp, hrre, hse, hrw, hsw,
        List.append_assoc]
  | false =>
    obtain ⟨hsp, hse, hsw⟩ := stdStage_spec outDir att
      ((selectFiles false (scanGroups walk).1).1.filter
        (fun f => !(isProcessed fsExists outDir f))) ⟨0, [], []⟩
    refine ⟨?_, ?_, ?_, ?_, ?_, ?_⟩ <;>
      simp [runModel, standardWorkList, rawWorkList, hsp, hse, hsw]

lemma runModel_spec_true (outDir : List Char) (fsExists : List Char → Bool)
    (att : List Char → Nat → Bool) (rawOk : List Char → Bool)
    (walk : List WalkEntry) :
    (runModel outDir fsExists att rawOk true walk).processed =
      (standardWorkList fsExists outDir true walk).countP (stdSucceeds att) +
      (rawWorkList true walk).countP rawOk ∧
    (runModel outDir fsExists att rawOk true walk).errlog =
      (standardWorkList fsExists outDir true walk).flatMap (fun f =>
        if stdSucceeds att f then ([] : List ErrEntry)
        else [(f, ErrSrc.pipelineEntry), (f, ErrSrc.schedulerEntry)]) ++
      ((rawWorkList true walk).filter (fun f => !rawOk f)).map
        (fun f => (f, ErrSrc.rawEntry)) ∧
    (runModel outDir fsExists att rawOk true walk).skipFiles =
      (selectFiles true (scanGroups walk).1).2.2 ∧
    (runModel outDir fsExists att rawOk true walk).sysFiles =
      (scanGroups walk).2 ∧
    (runModel outDir fsExists att rawOk true walk).totalFiles =
      (standardWorkList fsExists outDir true walk).length +
      (rawWorkList true walk).length ∧
    (runModel outDir fsExists att rawOk true walk).writes =
      ((standardWorkList fsExists outDir true walk).filter
        (stdSucceeds att)).map (outputJpgOf outDir) ++
      ((rawWorkList true walk).filter rawOk).map (outputJpgOf outDir) := by
  have h := runModel_spec outDir fsExists att rawOk true walk
  simpa using h

lemma runModel_spec_false (outDir : List Char) (fsExists : List Char → Bool)
    (att : List Char → Nat → Bool) (rawOk : List Char → Bool)
    (walk : List WalkEntry) :
    (runModel outDir fsExists att rawOk false walk).processed =
      (standardWorkList fsExists outDir false walk).countP (stdSucceeds att) ∧
    (runModel outDir fsExists att rawOk false walk).errlog =
      (standardWorkList fsExists outDir false walk).flatMap (fun f =>
        if stdSucceeds att f then ([] : List ErrEntry)
        else [(f, ErrSrc.pipelineEntry), (f, ErrSrc.schedulerEntry)]) ∧
    (runModel outDir fsExists att rawOk false walk).skipFiles =
      (selectFiles false (scanGroups walk).1).2.2 ∧
    (runModel outDir fsExists att rawOk false walk).sysFiles =
      (scanGroups walk).2 ∧
    (runModel outDir fsExists att rawOk false walk).totalFiles =
      (standardWorkList fsExists outDir false walk).length +
      (rawWorkList false walk).length ∧
    (runModel outDir fsExists att rawOk false walk).writes =
      ((standardWorkList fsExists outDir false walk).filter
        (stdSucceeds att)).map (outputJpgOf outDir) := by
  have h := runModel_spec outDir fsExists att rawOk false walk
  simpa using h

lemma countP_bool_split (p : List Char → Bool) (l : List (List Char)) :
    l.countP p + l.countP (fun a => !p a) = l.length := by
  induction l with
  | nil => simp
  | cons a t ih =>
    by_cases h : p a = true <;> simp [List.countP_cons, h] <;> omega

/-- Claim C5 counterexample: one standard image that fails all three
attempts: the scan considered 1 file, yet
`processed_files + len(error_log) + skip_files + skipped_system_files`
is 2 (the failed file is double-logged), violating the claimed bound. -/
theorem claimC5_counterexample :
    ([(⟨[], str "a.jpg"⟩ : WalkEntry)]).length = 1 ∧
    ¬ ((runModel (str "out") (fun _ => false) (fun _ _ => false) (fun _ => false) false
          [⟨[], str "a.jpg"⟩]).processed +
        (runModel (str "out") (fun _ => false) (fun _ _ => false) (fun _ => false) false
          [⟨[], str "a.jpg"⟩]).errlog.length +
        (runModel (str "out") (fun _ => false) (fun _ _ => false) (fun _ => false) false
          [⟨[], str "a.jpg"⟩]).skipFiles +
        (runModel (str "out") (fun _ => false) (fun _ _ => false) (fun _ => false) false
          [⟨[], str "a.jpg"⟩]).sysFiles ≤
        [(⟨[], str "a.jpg"⟩ : WalkEntry)].length) :=
  ⟨rfl, by decide⟩

/-- Claim C5 (amended): at completion of every run,
`processed_files ≤ total_files`, and
`processed_files + failed_files + skip_files + skipped_system_files`
is at most the number of files the scan considered, where
`failed_files` counts the per-file failure entries (`len(error_log)`
itself over-counts: the run loop duplicates every standard-image
failure, and indeed the scheduler-duplicate entries exactly equal the
pipeline entries in number). -/
theorem claimC5_amended :
    ∀ (outDir : List Char) (fsExists : List Char → Bool)
      (att : List Char → Nat → Bool) (rawOk : List Char → Bool)
      (rawEnabled : Bool) (walk : List WalkEntry),
      (runModel outDir fsExists att rawOk rawEnabled walk).processed ≤
        (runModel outDir fsExists att rawOk rawEnabled walk).totalFiles ∧
      (runModel outDir fsExists att rawOk rawEnabled walk).processed +
        failedEntryCount (runModel outDir fsExists att rawOk rawEnabled walk).errlog +
        (runModel outDir fsExists att rawOk rawEnabled walk).skipFiles +
        (runModel outDir fsExists att rawOk rawEnabled walk).sysFiles ≤
        walk.length ∧
      (runModel outDir fsExists att rawOk rawEnabled walk).errlog.countP
          (fun e => decide (e.2 = ErrSrc.schedulerEntry)) =
        (runModel outDir fsExists att rawOk rawEnabled walk).errlog.countP
          (fun e => decide (e.2 = ErrSrc.pipelineEntry)) := by
  intro outDir fsExists att rawOk rawEnabled walk
  cases rawEnabled with
  | true =>
    obtain ⟨hp, he, hk, hy, ht, hw⟩ := runModel_spec_true outDir fsExists att rawOk walk
    obtain ⟨hc1, hc2, hc3⟩ := errCounts_stdContrib att
      (standardWorkList fsExists outDir true walk)
    obtain ⟨hr1, hr2, hr3⟩ := errCounts_rawContrib rawOk (rawWorkList true walk)
    have hSlen : (standardWorkList fsExists outDir true walk).length ≤
        (selectFiles true (scanGroups walk).1).1.length := by
      unfold standardWorkList
      exact List.length_filter_le _ _
    have hRlen : (rawWorkList true walk).length =
        (selectFiles true (scanGroups walk).1).2.1.length := rfl
    have hsel := select_le_slots true (scanGroups walk).1
    have hslots := scanGroups_slots walk
    have hs1 := countP_bool_split (stdSucceeds att)
      (standardWorkList fsExists outDir true walk)
    have hs2 := countP_bool_split rawOk (rawWorkList true walk)
    refine ⟨?_, ?_, ?_⟩
    · rw [hp, ht]
      have c1 := List.countP_le_length (p := stdSucceeds att)
        (l := standardWorkList fsExists outDir true walk)
      have c2 := List.countP_le_length (p := rawOk) (l := rawWorkList true walk)
      omega
    · rw [hp, he, hk, hy]
      unfold failedEntryCount
      rw [List.countP_append]
      unfold failedEntryCount at hc1 hr1
      rw [hc1, hr1]
      omega
    · rw [he]
      rw [List.countP_append, List.countP_append, hc2, hc3, hr2, hr3]
  | false =>
    obtain ⟨hp, he, hk, hy, ht, hw⟩ := runModel_spec_false outDir fsExists att rawOk walk
    obtain ⟨hc1, hc2, hc3⟩ := errCounts_stdContrib att
      (standardWorkList fsExists outDir false walk)
    have hSlen : (standardWorkList fsExists outDir false walk).length ≤
        (selectFiles false (scanGroups walk).1).1.length := by
      unfold standardWorkList
      exact List.length_filter_le _ _
    have hsel := select_le_slots false (scanGroups walk).1
    have hslots := scanGroups_slots walk
    have hs1 := countP_bool_split (stdSucceeds att)
      (standardWorkList fsExists outDir false walk)
    refine ⟨?_, ?_, ?_⟩
    · rw [hp, ht]
      have c1 := List.countP_le_length (p := stdSucceeds att)
        (l := standardWorkList fsExists outDir false walk)
      omega
    · rw [hp, he, hk, hy]
      unfold failedEntryCount
      unfold failedEntryCount at hc1
      rw [hc1]
      omega
    · rw [he, hc2, hc3]

/-- Claim C6: a standard image is excluded from the work list iff its
mapped output path already exists (line 409 filters by
`_is_processed`); RAW files get no such pre-filter — the RAW work list
is the selected RAW list as-is and every RAW job is dispatched and
counted regardless of the filesystem state of its mapped output; and
rerunning the standard-image pipeline after a fully successful run
finds every mapped output present, so the second run's standard work
list is empty, it processes zero files and writes nothing (same output
set). -/
theorem claimC6_idempotent_prefilter :
    (∀ (fsExists : List Char → Bool) (outDir : List Char) (rawEnabled : Bool)
       (walk : List WalkEntry) (f : List Char),
      f ∈ standardWorkList fsExists outDir rawEnabled walk ↔
        f ∈ (selectFiles rawEnabled (scanGroups walk).1).1 ∧
        fsExists (outputJpgOf outDir f) = false) ∧
    (∀ (outDir : List Char) (fsExists : List Char → Bool)
       (att : List Char → Nat → Bool) (rawOk : List Char → Bool)
       (walk : List WalkEntry),
      (runModel outDir fsExists att rawOk true walk).processed =
        (standardWorkList fsExists outDir true walk).countP (stdSucceeds att) +
        (rawWorkList true walk).countP rawOk) ∧
    (∀ (outDir : List Char) (fs1 : List Char → Bool)
       (att : List Char → Nat → Bool) (rawOk : List Char → Bool)
       (walk : List WalkEntry),
      (∀ f ∈ standardWorkList fs1 outDir false walk, stdSucceeds att f = true) →
      standardWorkList
        (fun o => fs1 o ||
          decide (o ∈ (runModel outDir fs1 att rawOk false walk).writes))
        outDir false walk = [] ∧
      (runModel outDir
        (fun o => fs1 o ||
          decide (o ∈ (runModel outDir fs1 att rawOk false walk).writes))
        att rawOk false walk).processed = 0 ∧
      (runModel outDir
        (fun o => fs1 o ||
          decide (o ∈ (runModel outDir fs1 att rawOk false walk).writes))
        att rawOk false walk).writes = []) := by
  have hmem : ∀ (fsExists : List Char → Bool) (outDir : List Char) (rawEnabled : Bool)
      (walk : List WalkEntry) (f : List Char),
      f ∈ standardWorkList fsExists outDir rawEnabled walk ↔
        f ∈ (selectFiles rawEnabled (scanGroups walk).1).1 ∧
        fsExists (outputJpgOf outDir f) = false := by
    intro fsExists outDir rawEnabled walk f
    unfold standardWorkList isProcessed
    rw [List.mem_filter]
    simp
  refine ⟨hmem, ?_, ?_⟩
  · intro outDir fsExists att rawOk walk
    exact (runModel_spec_true outDir fsExists att rawOk walk).1
  · intro outDir fs1 att rawOk walk hsucc
    obtain ⟨hp1, he1, hk1, hy1, ht1, hw1⟩ := runModel_spec_false outDir fs1 att rawOk walk
    have hempty : standardWorkList
        (fun o => fs1 o ||
          decide (o ∈ (runModel outDir fs1 att rawOk false walk).writes))
        outDir false walk = [] := by
      unfold standardWorkList isProcessed
      rw [List.filter_eq_nil_iff]
      intro f hf
      simp only [Bool.not_eq_true', Bool.not_eq_false]
      by_cases h1 : fs1 (outputJpgOf outDir f) = true
      · simp [h1]
      · simp only [Bool.not_eq_true] at h1
        have hfw : f ∈ standardWorkList fs1 outDir false walk := by
          rw [hmem fs1 outDir false walk f]
          exact ⟨hf, h1⟩
        have hfs := hsucc f hfw
        have : outputJpgOf outDir f ∈
            (runModel outDir fs1 att rawOk false walk).writes := by
          rw [hw1]
          exact List.mem_map.mpr ⟨f, List.mem_filter.mpr ⟨hfw, hfs⟩, rfl⟩
        simp [this]
    obtain ⟨hp2, he2, hk2, hy2, ht2, hw2⟩ := runModel_spec_false outDir
      (fun o => fs1 o ||
        decide (o ∈ (runModel outDir fs1 att rawOk false walk).writes))
      att rawOk walk
    refine ⟨hempty, ?_, ?_⟩
    · rw [hp2, hempty]
      simp
    · rw [hw2, hempty]
      simp

/-- Witness for C6: after one fully successful run over a single image,
the second run's standard work list is empty. -/
theorem claimC6_idempotent_prefilter_witness :
    standardWorkList
      (fun o => (fun _ => false) o ||
        decide (o ∈ (runModel (str "out") (fun _ => false) (fun _ _ => true)
          (fun _ => false) false [⟨[], str "a.jpg"⟩]).writes))
      (str "out") false [⟨[], str "a.jpg"⟩] = [] :=
  (claimC6_idempotent_prefilter.2.2 (str "out") (fun _ => false) (fun _ _ => true)
    (fun _ => false) [⟨[], str "a.jpg"⟩] (by decide)).1

lemma submitUpTo_eq (limit : Nat) (dur : List Char → Nat)
    (flight : List (List Char × Nat)) (pending : List (List Char)) :
    ∃ n, (submitUpTo limit dur flight pending).1 =
        flight ++ (pending.take n).map (fun f => (f, dur f)) ∧
      (submitUpTo limit dur flight pending).2 = pending.drop n := by
  induction pending generalizing flight with
  | nil => exact ⟨0, by simp [submitUpTo]⟩
  | cons f rest ih =>
    unfold submitUpTo
    by_cases h : flight.length < limit
    · rw [if_pos h]
      obtain ⟨n, h1, h2⟩ := ih (flight ++ [(f, dur f)])
      refine ⟨n + 1, ?_, ?_⟩
      · rw [h1]
        simp
      · rw [h2]
        simp
    · rw [if_neg h]
      exact ⟨0, by simp⟩

lemma submitUpTo_names (limit : Nat) (dur : List Char → Nat)
    (flight : List (List Char × Nat)) (pending : List (List Char)) :
    (submitUpTo limit dur flight pending).1.map (fun q => q.1) ++
      (submitUpTo limit dur flight pending).2 =
      flight.map (fun q => q.1) ++ pending := by
  obtain ⟨n, h1, h2⟩ := submitUpTo_eq limit dur flight pending
  rw [h1, h2, List.map_append, List.map_map]
  have : ((fun q : List Char × Nat => q.1) ∘ (fun f => (f, dur f))) = id := by
    funext g
    rfl
  rw [this, List.map_id, List.append_assoc, List.take_append_drop]

lemma collectDone_fold (att : List Char → Nat → Bool) (done : List (List Char))
    (st : SchedState) :
    (done.foldl (collectDone att) st).pending = st.pending ∧
    (done.foldl (collectDone att) st).flight = st.flight ∧
    (done.foldl (collectDone att) st).polled = st.polled ++ done ∧
    (done.foldl (collectDone att) st).processed =
      st.processed + done.countP (fun f => (processImage (att f) f).1) ∧
    (done.foldl (collectDone att) st).errlog =
      st.errlog ++ done.flatMap (fun f =>
        if (processImage (att f) f).1 then ([] : List ErrEntry)
        else [(f, ErrSrc.pipelineEntry), (f, ErrSrc.schedulerEntry)]) := by
  induction done generalizing st with
  | nil => simp
  | cons f rest ih =>
    rw [List.foldl_cons]
    obtain ⟨ih1, ih2, ih3, ih4, ih5⟩ := ih (collectDone att st f)
    by_cases h : (processImage (att f) f).1 = true
    · refine ⟨?_, ?_, ?_, ?_, ?_⟩
      · rw [ih1]
        simp [collectDone, h]
      · rw [ih2]
        simp [collectDone, h]
      · rw [ih3]
        simp [collectDone, h]
      · rw [ih4]
        simp [collectDone, h, List.countP_cons]
        omega
      · rw [ih5]
        simp [collectDone, h]
    · simp only [Bool.not_eq_true] at h
      refine ⟨?_, ?_, ?_, ?_, ?_⟩
      · rw [ih1]
        simp [collectDone, h]
      · rw [ih2]
        simp [collectDone, h]
      · rw [ih3]
        simp [collectDone, h]
      · rw [ih4]
        simp [collectDone, h, List.countP_cons]
      · rw [ih5]
        simp [collectDone, h]

lemma keepmap_fst (sp1 : List (List Char × Nat)) :
    ((sp1.filter (fun q => !decide (q.2 = 0))).map
      (fun q => (q.1, q.2 - 1))).map (fun q => q.1) =
    (sp1.filter (fun q => !decide (q.2 = 0))).map (fun q => q.1) := by
  rw [List.map_map]
  rfl

lemma done_keep_perm (sp1 : List (List Char × Nat)) :
    ((sp1.filter (fun q => decide (q.2 = 0))).map (fun q => q.1) ++
      (sp1.filter (fun q => !decide (q.2 = 0))).map (fun q => q.1)).Perm
    (sp1.map (fun q => q.1)) := by
  have h := List.filter_append_perm (fun q : List Char × Nat => decide (q.2 = 0)) sp1
  have h2 := h.map (fun q : List Char × Nat => q.1)
  rw [List.map_append] at h2
  exact h2

lemma schedLoop_invariant (limit : Nat) (att : List Char → Nat → Bool)
    (dur : List Char → Nat) (cancelAt : Nat) (fuel : Nat) :
    ∀ (t : Nat) (st : SchedState),
    ∃ np : List (List Char),
      (schedLoop limit att dur cancelAt fuel t st).polled = st.polled ++ np ∧
      (schedLoop limit att dur cancelAt fuel t st).processed =
        st.processed + np.countP (fun f => (processImage (att f) f).1) ∧
      (schedLoop limit att dur cancelAt fuel t st).errlog =
        st.errlog ++ np.flatMap (fun f =>
          if (processImage (att f) f).1 then ([] : List ErrEntry)
          else [(f, ErrSrc.pipelineEntry), (f, ErrSrc.schedulerEntry)]) ∧
      (np ++ (schedLoop limit att dur cancelAt fuel t st).flight.map (fun q => q.1) ++
        (schedLoop limit att dur cancelAt fuel t st).pending).Perm
        (st.flight.map (fun q => q.1) ++ st.pending) := by
  induction fuel with
  | zero =>
    intro t st
    exact ⟨[], by simp [schedLoop], by simp [schedLoop], by simp [schedLoop],
      by simp [schedLoop]⟩
  | succ fuel ih =>
    intro t st
    unfold schedLoop
    by_cases hc : cancelAt ≤ t
    · rw [if_pos hc]
      exact ⟨[], by simp, by simp, by simp, by simp⟩
    · rw [if_neg hc]
      by_cases hsp : (submitUpTo limit dur st.flight st.pending).1 = []
      · rw [if_pos hsp]
        have hnames := submitUpTo_names limit dur st.flight st.pending
        rw [hsp] at hnames
        simp only [List.map_nil, List.nil_append] at hnames
        refine ⟨[], by simp, by simp, by simp, ?_⟩
        simp only [List.nil_append, List.map_nil]
        rw [hnames]
      · rw [if_neg hsp]
        have hcd := collectDone_fold att
          (((submitUpTo limit dur st.flight st.pending).1.filter
            (fun q : List Char × Nat => decide (q.2 = 0))).map
            (fun q : List Char × Nat => q.1))
          { st with
            flight := ((submitUpTo limit dur st.flight st.pending).1.filter
              (fun q : List Char × Nat => !decide (q.2 = 0))).map
              (fun q : List Char × Nat => (q.1, q.2 - 1)),
            pending := (submitUpTo limit dur st.flight st.pending).2 }
        obtain ⟨cd1, cd2, cd3, cd4, cd5⟩ := hcd
        have hih := ih (t + 1)
          ((((submitUpTo limit dur st.flight st.pending).1.filter
            (fun q : List Char × Nat => decide (q.2 = 0))).map
            (fun q : List Char × Nat => q.1)).foldl (collectDone att)
            { st with
              flight := ((submitUpTo limit dur st.flight st.pending).1.filter
                (fun q : List Char × Nat => !decide (q.2 = 0))).map
                (fun q : List Char × Nat => (q.1, q.2 - 1)),
              pending := (submitUpTo limit dur st.flight st.pending).2 })
        obtain ⟨np1, h1, h2, h3, h4⟩ := hih
        refine ⟨(((submitUpTo limit dur st.flight st.pending).1.filter
            (fun q => decide (q.2 = 0))).map (fun q => q.1)) ++ np1, ?_, ?_, ?_, ?_⟩
        · rw [h1, cd3]
          simp [List.append_assoc]
        · rw [h2, cd4]
          simp only [List.countP_append]
          simp
          omega
        · rw [h3, cd5]
          simp [List.append_assoc]
        · rw [cd2, cd1] at h4
          dsimp only at h4
          rw [keepmap_fst] at h4
          simp only [List.append_assoc] at h4 ⊢
          have hstep1 := List.Perm.append_left
            (((submitUpTo limit dur st.flight st.pending).1.filter
              (fun q => decide (q.2 = 0))).map (fun q => q.1)) h4
          have hstep2 := List.Perm.append_right
            (submitUpTo limit dur st.flight st.pending).2
            (done_keep_perm (submitUpTo limit dur st.flight st.pending).1)
          simp only [List.append_assoc] at hstep2
          have hnames := submitUpTo_names limit dur st.flight st.pending
          have hfin : ((submitUpTo limit dur st.flight st.pending).1.map
              (fun q => q.1) ++ (submitUpTo limit dur st.flight st.pending).2).Perm
              (st.flight.map (fun q => q.1) ++ st.pending) := by
            rw [hnames]
          exact (hstep1.trans hstep2).trans hfin

/-- Claim C3 counterexample: one job submitted at iteration 0 with the
cancellation flag read false only once (`cancelAt = 1`); the job is
dispatched (pending is empty) and still in flight when the loop exits;
during executor shutdown it runs to completion and its processing
succeeds, yet `processed_files` stays 0 — the in-flight job's result is
NOT recorded in the run counters. -/
theorem claimC3_counterexample :
    (runStdSched 2 (fun _ _ => true) (fun _ => 5) 1 10 [str "a.jpg"]).flight.map
        (fun q => q.1) = [str "a.jpg"] ∧
    (processImage ((fun _ _ => true) (str "a.jpg")) (str "a.jpg")).1 = true ∧
    (runStdSched 2 (fun _ _ => true) (fun _ => 5) 1 10 [str "a.jpg"]).pending = [] ∧
    (runStdSched 2 (fun _ _ => true) (fun _ => 5) 1 10 [str "a.jpg"]).processed = 0 :=
  ⟨by decide, by decide, by decide, by decide⟩

/-- Claim C3 (amended): once the loop reads the cancellation flag false
it submits and polls nothing further; the executor drain lets every
in-flight job run to completion, but their results are dropped:
`processed_files` is unchanged by the drain, a drained failure
contributes only the single entry `process_image` itself logs, and a
drained success contributes nothing. Jobs polled before the exit are
counted exactly once each (polled jobs are distinct and, together with
the in-flight and never-submitted jobs, form a permutation of the
input), `processed_files` equals the number of polled successes, and
the loop's error log holds exactly the two entries per polled
failure. -/
theorem claimC3_amended :
    (∀ (limit : Nat) (att : List Char → Nat → Bool) (dur : List Char → Nat)
       (cancelAt fuel t : Nat) (st : SchedState),
      cancelAt ≤ t → schedLoop limit att dur cancelAt fuel t st = st) ∧
    (∀ (att : List Char → Nat → Bool) (flight : List (List Char × Nat)),
      drainEntries att flight =
        (flight.filter (fun q => !(processImage (att q.1) q.1).1)).map
          (fun q => (q.1, ErrSrc.pipelineEntry))) ∧
    (∀ (limit : Nat) (att : List Char → Nat → Bool) (dur : List Char → Nat)
       (cancelAt fuel : Nat) (files : List (List Char)),
      (runStdSched limit att dur cancelAt fuel files).processed =
        (schedLoop limit att dur cancelAt fuel 0 ⟨files, [], 0, [], []⟩).processed ∧
      ∃ np : List (List Char),
        (runStdSched limit att dur cancelAt fuel files).polled = np ∧
        (np ++ (runStdSched limit att dur cancelAt fuel files).flight.map
            (fun q => q.1) ++
          (runStdSched limit att dur cancelAt fuel files).pending).Perm files ∧
        (runStdSched limit att dur cancelAt fuel files).processed =
          np.countP (fun f => (processImage (att f) f).1) ∧
        (runStdSched limit att dur cancelAt fuel files).errlog =
          np.flatMap (fun f =>
            if (processImage (att f) f).1 then ([] : List ErrEntry)
            else [(f, ErrSrc.pipelineEntry), (f, ErrSrc.schedulerEntry)]) ++
          drainEntries att (runStdSched limit att dur cancelAt fuel files).flight ∧
        (files.Nodup → np.Nodup)) := by
  refine ⟨?_, ?_, ?_⟩
  · intro limit att dur cancelAt fuel t st h
    cases fuel with
    | zero => rfl
    | succ n =>
      unfold schedLoop
      rw [if_pos h]
  · intro att flight
    induction flight with
    | nil => simp [drainEntries]
    | cons q rest ih =>
      unfold drainEntries at ih ⊢
      by_cases h : (processImage (att q.1) q.1).1 = true
      · simp [h, ih]
      · simp only [Bool.not_eq_true] at h
        simp [h, ih]
  · intro limit att dur cancelAt fuel files
    obtain ⟨np, hp1, hp2, hp3, hp4⟩ :=
      schedLoop_invariant limit att dur cancelAt fuel 0 ⟨files, [], 0, [], []⟩
    refine ⟨rfl, np, ?_, ?_, ?_, ?_, ?_⟩
    · simpa [runStdSched] using hp1
    · have : (runStdSched limit att dur cancelAt fuel files).flight =
          (schedLoop limit att dur cancelAt fuel 0 ⟨files, [], 0, [], []⟩).flight := rfl
      have hpend : (runStdSched limit att dur cancelAt fuel files).pending =
          (schedLoop limit att dur cancelAt fuel 0 ⟨files, [], 0, [], []⟩).pending := rfl
      rw [this, hpend]
      simpa using hp4
    · simpa [runStdSched] using hp2
    · have herr : (runStdSched limit att dur cancelAt fuel files).errlog =
          (schedLoop limit att dur cancelAt fuel 0 ⟨files, [], 0, [], []⟩).errlog ++
          drainEntries att
            (schedLoop limit att dur cancelAt fuel 0 ⟨files, [], 0, [], []⟩).flight := rfl
      have hfl : (runStdSched limit att dur cancelAt fuel files).flight =
          (schedLoop limit att dur cancelAt fuel 0 ⟨files, [], 0, [], []⟩).flight := rfl
      rw [herr, hp3, hfl]
      simp
    · intro hnd
      have hperm : ((np ++ (schedLoop limit att dur cancelAt fuel 0
          ⟨files, [], 0, [], []⟩).flight.map (fun q => q.1) ++
          (schedLoop limit att dur cancelAt fuel 0 ⟨files, [], 0, [], []⟩).pending)).Perm
          files := by
        simpa using hp4
      have hall : (np ++ (schedLoop limit att dur cancelAt fuel 0
          ⟨files, [], 0, [], []⟩).flight.map (fun q => q.1) ++
          (schedLoop limit att dur cancelAt fuel 0 ⟨files, [], 0, [], []⟩).pending).Nodup :=
        hperm.nodup_iff.mpr hnd
      exact ((hall.of_append_left).of_append_left)

/-- Witness for the amended C3: with cancellation already requested at
iteration 0, the loop leaves the state untouched. -/
theorem claimC3_amended_witness :
    schedLoop 2 (fun _ _ => true) (fun _ => 0) 0 5 0 ⟨[str "a.jpg"], [], 0, [], []⟩ =
      ⟨[str "a.jpg"], [], 0, [], []⟩ :=
  claimC3_amended.1 2 (fun _ _ => true) (fun _ => 0) 0 5 0
    ⟨[str "a.jpg"], [], 0, [], []⟩ (by decide)

lemma hasPre_append (a b : List Char) : hasPre a (a ++ b) = true := by
  induction a with
  | nil => rfl
  | cons c cs ih => simp [hasPre, ih]

lemma pyRepGo_nilStr (p : Char) (ps repl : List Char) (fuel : Nat) :
    pyRepGo p ps repl fuel [] = [] := by
  cases fuel <;> rfl

lemma pyRepGo_only_suffix (p : Char) (ps repl : List Char) :
    ∀ (u s : List Char), s = u ++ (p :: ps) →
    (∀ i, i < u.length → hasPre (p :: ps) (s.drop i) = false) →
    pyRepGo p ps repl s.length s = u ++ repl := by
  intro u
  induction u with
  | nil =>
    intro s hs _
    subst hs
    simp only [List.nil_append, List.length_cons]
    have hpre : hasPre (p :: ps) (p :: ps) = true := by
      have := hasPre_append (p :: ps) []
      rwa [List.append_nil] at this
    simp only [pyRepGo, hpre, if_true]
    rw [List.drop_length, pyRepGo_nilStr, List.append_nil]
  | cons c u' ih =>
    intro s hs hocc
    subst hs
    have h0 := hocc 0 (by simp)
    rw [List.drop_zero] at h0
    rw [List.cons_append] at h0 ⊢
    simp only [List.length_cons]
    simp only [pyRepGo, h0, Bool.false_eq_true, if_false]
    have hih := ih (u' ++ (p :: ps)) rfl (fun i hi => by
      have := hocc (i + 1) (by simpa using Nat.succ_lt_succ hi)
      rw [List.cons_append] at this
      simpa using this)
    rw [hih]
    rfl

lemma pyReplace_only_suffix {pat repl s u : List Char} (hne : pat ≠ [])
    (hs : s = u ++ pat)
    (hocc : ∀ i, i < u.length → hasPre pat (s.drop i) = false) :
    pyReplace s pat repl = u ++ repl := by
  cases pat with
  | nil => exact absurd rfl hne
  | cons p ps =>
    unfold pyReplace
    exact pyRepGo_only_suffix p ps repl u s hs hocc

lemma splitext_recomb (p : List Char) : (splitext p).1 ++ (splitext p).2 = p := by
  unfold splitext
  by_cases h : (decide (pyRfind p '/' < pyRfind p '.') &&
      (List.range p.length).any (fun i =>
        decide (pyRfind p '/' < (i : Int) ∧ (i : Int) < pyRfind p '.' ∧
          p.getD i '.' ≠ '.'))) = true
  · rw [if_pos h]
    exact List.take_append_drop _ p
  · rw [if_neg h]
    exact List.append_nil p

/-- Claim C4 counterexample: for the input `a.png/b.png` under the
input root with output root `/o`, the code's `str.replace` substitutes
every occurrence of `.png` in the joined path, rewriting the directory
part too: it writes to `/o/a.jpg/b.jpg`, not the claimed
`/o/a.png/b.jpg` with the directory preserved. -/
theorem claimC4_counterexample :
    outputJpgOf (str "/o") (str "a.png/b.png") = str "/o/a.jpg/b.jpg" ∧
    specOutputJpg (str "/o") (str "a.png/b.png") = str "/o/a.png/b.jpg" ∧
    outputJpgOf (str "/o") (str "a.png/b.png") ≠
      specOutputJpg (str "/o") (str "a.png/b.png") :=
  ⟨by decide, by decide, by decide⟩

/-- Claim C4 (amended): the output path is the joined path with EVERY
occurrence of the final-extension substring replaced by `.jpg` (the
same computation backs both the write path and the already-processed
check); only when the extension substring occurs nowhere before its
final position — in particular when the directory part contains no
occurrence — does it equal output root + relative path with just the
final extension replaced, directory part unchanged. -/
theorem claimC4_amended :
    (∀ (outDir relPath u : List Char),
      (splitext (pyJoin outDir relPath)).2 ≠ [] →
      pyJoin outDir relPath = u ++ (splitext (pyJoin outDir relPath)).2 →
      (∀ i, i < u.length →
        hasPre ((splitext (pyJoin outDir relPath)).2)
          ((pyJoin outDir relPath).drop i) = false) →
      outputJpgOf outDir relPath = u ++ JPG_EXT ∧
      outputJpgOf outDir relPath = specOutputJpg outDir relPath) ∧
    outputJpgOf (str "/o") (str "a.png/b.png") = str "/o/a.jpg/b.jpg" := by
  refine ⟨?_, by decide⟩
  intro outDir relPath u hne hs hocc
  have h1 : outputJpgOf outDir relPath = u ++ JPG_EXT := by
    unfold outputJpgOf
    exact pyReplace_only_suffix hne hs hocc
  refine ⟨h1, ?_⟩
  have hrec := splitext_recomb (pyJoin outDir relPath)
  have hu : u = (splitext (pyJoin outDir relPath)).1 := by
    have heq : u ++ (splitext (pyJoin outDir relPath)).2 =
        (splitext (pyJoin outDir relPath)).1 ++
          (splitext (pyJoin outDir relPath)).2 := by
      rw [← hs, hrec]
    exact List.append_cancel_right heq
  rw [h1, hu]
  rfl

/-- Witness for the amended C4: `b.png` under output root `/o`, whose
extension occurs only at the end of the joined path. -/
theorem claimC4_amended_witness :
    outputJpgOf (str "/o") (str "b.png") = str "/o/b" ++ JPG_EXT :=
  (claimC4_amended.1 (str "/o") (str "b.png") (str "/o/b")
    (by decide) (by decide) (by decide)).1
